import Mathlib

/-!
Shallow embedding of the sosu-seisei segmented wheel sieve engine
(`src/cpu_engine.rs`, `src/sieve_math.rs`, `src/engine_types.rs`).

Modelling conventions:
* `u64` values are modelled as `ℕ`.  The source never overflows on the
  executed paths: `saturating_add(x).min(prime_max)` agrees with the plain
  `min (a + x) prime_max` whenever `prime_max` fits in `u64`, and
  `saturating_sub` is exactly truncated subtraction on `ℕ`.
* `f64` values (only used by `compute_eta`) are modelled as `ℚ`; all the
  quantities appearing in the claims are exactly representable.
* Loops are modelled by structurally recursive functions on an explicit
  iteration bound (`fuel`); every call site passes a bound that is proved
  (or easily seen) to exceed the number of iterations the Rust loop makes,
  so the exhaustion branch is dead code.
* The atomic cancellation flag is modelled by boolean streams: each
  `load` of the flag consumes the next value of a stream, one stream for
  the orchestrator thread and one per segment worker.
* The `PrimeWriter` and the progress callback are modelled by accumulating
  the sequence of `write_prime` arguments, the number of `finish` calls and
  the sequence of `Progress` values delivered.  The writer is modelled as
  never failing (the claims about writer behaviour are all conditioned on
  the writer never returning an error).
-/

/-! ### Wheel arithmetic lemmas -/

/-! ### Correctness of `simple_sieve` -/

/-! ### Correctness of the segment kernel -/

/-- Wheel variants of the engine (`src/config.rs`). -/
inductive WheelType
  | Odd
  | Mod6
  | Mod30
deriving DecidableEq

/-- Candidate residue pattern of the mod-30 wheel (`MOD30_PATTERN`). -/
def MOD30_PATTERN : List ℕ := [1, 7, 11, 13, 17, 19, 23, 29]

/-- Residue-to-slot table of the mod-30 wheel; 255 marks non-candidates
(`MOD30_TO_INDEX`). -/
def MOD30_TO_INDEX : List ℕ :=
  [255, 0, 255, 255, 255, 255, 255, 1,
   255, 255, 255, 2, 255, 3, 255, 255,
   255, 4, 255, 5, 255, 255, 255, 6,
   255, 255, 255, 255, 255, 7]

/-- Table lookup `MOD30_TO_INDEX[r]` (all source lookups use `r < 30`). -/
def mod30Idx (r : ℕ) : ℕ := MOD30_TO_INDEX.getD r 255

/-- Rank of `n` among mod-6 wheel candidates: `(n / 6) * 2 + if n % 6 == 5 { 1 } else { 0 }`
(the `low_in_period` / `n_in_period` expressions of `n_to_index` / `index_to_n`). -/
def inPeriod6 (n : ℕ) : ℕ := n / 6 * 2 + (if n % 6 = 5 then 1 else 0)

/-- Rank of `n` among mod-30 wheel candidates: `(n / 30) * 8 + idx` where
`idx = MOD30_TO_INDEX[n % 30]`. -/
def inPeriod30 (n : ℕ) : ℕ := n / 30 * 8 + mod30Idx (n % 30)

/-- Translation of `n_to_index` (cpu_engine.rs:343-392).  `u64` subtraction
is modelled by truncated `ℕ` subtraction; the safety claim shows the
subtrahends are always bounded on the reachable paths. -/
def n_to_index (n low : ℕ) (w : WheelType) : Option ℕ :=
  if n < low then none
  else
    match w with
    | .Odd =>
        if n % 2 = 1 ∧ low % 2 = 1 then some ((n - low) / 2) else none
    | .Mod6 =>
        if (n % 6 ≠ 1 ∧ n % 6 ≠ 5) ∨ (low % 6 ≠ 1 ∧ low % 6 ≠ 5) then none
        else some (inPeriod6 n - inPeriod6 low)
    | .Mod30 =>
        if mod30Idx (n % 30) = 255 ∨ mod30Idx (low % 30) = 255 then none
        else some (inPeriod30 n - inPeriod30 low)

/-- Translation of `index_to_n` (cpu_engine.rs:397-439). -/
def index_to_n (idx low : ℕ) (w : WheelType) : ℕ :=
  match w with
  | .Odd => low + idx * 2
  | .Mod6 =>
      if (inPeriod6 low + idx) % 2 = 0 then (inPeriod6 low + idx) / 2 * 6 + 1
      else (inPeriod6 low + idx) / 2 * 6 + 5
  | .Mod30 =>
      (inPeriod30 low + idx) / 8 * 30 + MOD30_PATTERN.getD ((inPeriod30 low + idx) % 8) 0

/-- Translation of `calculate_bitvec_size` (cpu_engine.rs:442-459). -/
def calculate_bitvec_size (low high : ℕ) (w : WheelType) : ℕ :=
  match w with
  | .Odd => (high - low) / 2 + 1
  | .Mod6 => (high - low + 1) / 6 * 2 + 2
  | .Mod30 => (high - low + 1) / 30 * 8 + 8

/-- The linear search of `adjust_low` for the mod-30 wheel
(`for offset in 1..30 { ... }`, cpu_engine.rs:489-495). -/
def adjust30 (low : ℕ) : ℕ :=
  match (List.range' 1 29).find? (fun o => mod30Idx ((low % 30 + o) % 30) ≠ 255) with
  | some o => low + o
  | none => low

/-- Translation of `adjust_low` (cpu_engine.rs:462-498). -/
def adjust_low (low : ℕ) (w : WheelType) : ℕ :=
  match w with
  | .Odd => if low % 2 = 0 then low + 1 else low
  | .Mod6 =>
      match low % 6 with
      | 1 => low
      | 5 => low
      | 0 => low + 1
      | 2 => low + 3
      | 3 => low + 2
      | 4 => low + 1
      | _ => low
  | .Mod30 =>
      if mod30Idx (low % 30) ≠ 255 then low else adjust30 low

/-- Primes excluded from segment sieving by the wheel
(`wheel_excluded_primes`, cpu_engine.rs:67-71). -/
def wheelExcluded (w : WheelType) : List ℕ :=
  match w with
  | .Odd => [2]
  | .Mod6 => [2, 3]
  | .Mod30 => [2, 3, 5]

/-- The per-prime skip test of the segment kernel (cpu_engine.rs:251-267). -/
def wheelSkip (w : WheelType) (p : ℕ) : Bool :=
  match w with
  | .Odd => p = 2
  | .Mod6 => p = 2 || p = 3
  | .Mod30 => p = 2 || p = 3 || p = 5

/-- Loop body of `integer_sqrt` (sieve_math.rs:4-16), on an explicit
iteration bound.  The `checked_mul` overflow branch coincides with the
`mid * mid > n` branch for in-range `n`, so it is modelled by the plain
comparison. -/
def sqrtLoop (n : ℕ) : ℕ → ℕ → ℕ → ℕ
  | 0, _, high => high
  | fuel + 1, low, high =>
      if low ≤ high then
        let mid := (low + high) / 2
        if mid * mid = n then mid
        else if mid * mid < n then sqrtLoop n fuel (mid + 1) high
        else sqrtLoop n fuel low (mid - 1)
      else high

/-- Translation of `integer_sqrt` (sieve_math.rs:4-16): binary search over
`[0, n]`.  Each loop step shrinks `high - low`, so `n + 2` iterations always
suffice. -/
def integer_sqrt (n : ℕ) : ℕ := sqrtLoop n (n + 2) 0 n

/-- Progress record delivered to the callback (`engine_types.rs`). -/
structure Progress where
  processed : ℕ
  total : ℕ
  eta_secs : Option ℕ
deriving DecidableEq

/-- Rust `f64::round` (half away from zero) followed by the `as u64` cast,
for the non-negative rationals produced by `compute_eta`. -/
def roundQ (q : ℚ) : ℕ := (q + 1 / 2).floor.toNat

/-- Translation of `compute_eta` (engine_types.rs:37-48), with `f64`
modelled as `ℚ`. -/
def compute_eta (processed total : ℕ) (elapsed_secs : ℚ) : Option ℕ :=
  if total = 0 then none
  else
    let progress : ℚ := (min processed total : ℕ) / (total : ℚ)
    if 0 < progress then
      let total_time := elapsed_secs / progress
      some (roundQ (max (total_time - elapsed_secs) 0))
    else none

/-- Pointwise update of a bit array modelled as a function. -/
def setBit (arr : ℕ → Bool) (k : ℕ) (b : Bool) : ℕ → Bool :=
  Function.update arr k b

/-- Inner body of `simple_sieve`: clear `j, j + i, j + 2*i, ...` while
`j ≤ limit` (sieve_math.rs:34-39), on an explicit iteration bound. -/
def markMult (limit i : ℕ) : ℕ → ℕ → (ℕ → Bool) → (ℕ → Bool)
  | 0, _, arr => arr
  | fuel + 1, j, arr =>
      if j ≤ limit then markMult limit i fuel (j + i) (setBit arr j false)
      else arr

/-- Outer loop of `simple_sieve` (`for i in 2..=lim_sqrt`,
sieve_math.rs:32-40): `count` remaining values of `i`. -/
def sieveOuter (limit : ℕ) : ℕ → ℕ → (ℕ → Bool) → (ℕ → Bool)
  | 0, _, arr => arr
  | count + 1, i, arr =>
      let arr' := if arr i then markMult limit i (limit + 1) (i * i) arr else arr
      sieveOuter limit count (i + 1) arr'

/-- Translation of `simple_sieve` (sieve_math.rs:19-49).  The boolean array
is a function initialised to `true` with positions 0 and 1 cleared; the
final collection walks indices `2..=limit`. -/
def simple_sieve (limit : ℕ) : List ℕ :=
  if limit < 2 then []
  else
    let init : ℕ → Bool := fun k => !(k = 0 || k = 1)
    let lim_sqrt := integer_sqrt limit
    let arr := sieveOuter limit (lim_sqrt + 1 - 2) 2 init
    (List.range' 2 (limit + 1 - 2)).filter (fun i => arr i)

/-- The candidate-alignment loops of the segment kernel: advance `n` by `p`
while `n ≤ high` and `n_to_index` is `None` (cpu_engine.rs:284-289 and
306-308), on an explicit iteration bound. -/
def skipToCand (p high low : ℕ) (w : WheelType) : ℕ → ℕ → ℕ
  | 0, n => n
  | fuel + 1, n =>
      if n ≤ high ∧ n_to_index n low w = none then skipToCand p high low w fuel (n + p)
      else n

/-- Marking loop of the segment kernel for one prime `p`
(cpu_engine.rs:292-309).  One cancellation poll per outer iteration;
`none` models the `return Vec::new()` abort. -/
def markLoop (p high low len : ℕ) (w : WheelType) (stop : ℕ → Bool) :
    ℕ → ℕ → (ℕ → Bool) → ℕ → Option ((ℕ → Bool) × ℕ)
  | 0, _, bv, t => some (bv, t)
  | fuel + 1, n, bv, t =>
      if n ≤ high then
        if stop t then none
        else
          let bv' :=
            match n_to_index n low w with
            | some idx => if idx < len then setBit bv idx false else bv
            | none => bv
          markLoop p high low len w stop fuel (skipToCand p high low w (high + 1) (n + p)) bv' (t + 1)
      else some (bv, t)

/-- Per-prime loop of the segment kernel (`for &p in small_primes`,
cpu_engine.rs:245-310): skip wheel-excluded primes, break once
`p * p > high`, otherwise mark the multiples of `p` starting from
`max(first multiple of p ≥ low, p * p)` aligned to the wheel. -/
def sieveLoop (high low len : ℕ) (w : WheelType) (stop : ℕ → Bool) :
    List ℕ → (ℕ → Bool) → ℕ → Option ((ℕ → Bool) × ℕ)
  | [], bv, t => some (bv, t)
  | p :: rest, bv, t =>
      if stop t then none
      else if wheelSkip w p then sieveLoop high low len w stop rest bv (t + 1)
      else if p * p > high then some (bv, t + 1)
      else
        let start0 := if low % p = 0 then low else low + (p - low % p)
        let start1 := if start0 < p * p then p * p else start0
        let start2 := skipToCand p high low w (high + 1) start1
        match markLoop p high low len w stop (high + 1) start2 bv (t + 1) with
        | none => none
        | some (bv', t') => sieveLoop high low len w stop rest bv' t'

/-- Final collection of the segment kernel (cpu_engine.rs:312-323): walk the
bit array in index order, convert indices back to numbers, keep those
`≤ high`. -/
def collectPrimes (bv : ℕ → Bool) (len low high : ℕ) (w : WheelType) : List ℕ :=
  (List.range len).filterMap fun i =>
    if bv i then
      let n := index_to_n i low w
      if n ≤ high then some n else none
    else none

/-- Translation of `sieve_segment_collect` (cpu_engine.rs:222-324).
`stop` is the stream of values this worker's cancellation polls read;
an observed `true` makes the function return an empty vector. -/
def sieve_segment_collect (low_inclusive high_inclusive : ℕ) (small_primes : List ℕ)
    (stop : ℕ → Bool) (w : WheelType) : List ℕ :=
  if low_inclusive > high_inclusive then []
  else
    let low := adjust_low low_inclusive w
    if low > high_inclusive then []
    else
      let high := high_inclusive
      let len := calculate_bitvec_size low high w
      match sieveLoop high low len w stop small_primes (fun _ => true) 0 with
      | none => []
      | some (bv, _) => collectPrimes bv len low high w

/-- Result of one segment worker (the local `SegmentResult` struct,
cpu_engine.rs:121-126). -/
structure SegmentResult where
  low : ℕ
  high : ℕ
  primes : List ℕ

/-- Insertion step of the stable sort modelling `results.sort_by_key(|r| r.low)`. -/
def insertByLow (x : SegmentResult) : List SegmentResult → List SegmentResult
  | [] => [x]
  | y :: ys => if x.low ≤ y.low then x :: y :: ys else y :: insertByLow x ys

/-- Stable sort by segment start, modelling `results.sort_by_key(|r| r.low)`
(cpu_engine.rs:182). -/
def sortByLow : List SegmentResult → List SegmentResult
  | [] => []
  | x :: xs => insertByLow x (sortByLow xs)

/-- Segment boundary generation for one group (cpu_engine.rs:140-150):
at most `group_size` segments of size `segment_size` starting at
`seg_start`, truncated at `prime_max`; returns the bounds together with the
new `seg_start`.  `seg_start.saturating_add(segment_size - 1).min(prime_max)`
is written as the equal `min (seg_start + (segment_size - 1)) prime_max`. -/
def mkBounds (prime_max segment_size : ℕ) : ℕ → ℕ → List (ℕ × ℕ) × ℕ
  | 0, seg_start => ([], seg_start)
  | k + 1, seg_start =>
      if seg_start > prime_max then ([], seg_start)
      else
        let seg_end := min (seg_start + (segment_size - 1)) prime_max
        let res := mkBounds prime_max segment_size k (seg_end + 1)
        ((seg_start, seg_end) :: res.1, res.2)

/-- One segment worker of the parallel group map (cpu_engine.rs:164-179):
poll the flag once, then run the segment kernel with the rest of this
worker's poll stream. -/
def runWorker (sp : List ℕ) (w : WheelType) (stopW : ℕ → ℕ → Bool) (b : ℕ × ℕ) :
    SegmentResult :=
  if stopW b.1 0 then ⟨b.1, b.2, []⟩
  else ⟨b.1, b.2, sieve_segment_collect b.1 b.2 sp (fun t => stopW b.1 (t + 1)) w⟩

/-- Output loop over a group's sorted results (cpu_engine.rs:185-196): one
cancellation poll per result; on abort the primes written so far are kept
and the `Bool` component records that the run finished early.  Also
accumulates `processed` (`res.high - res.low + 1` per result). -/
def writeResults (stopO : ℕ → Bool) :
    List SegmentResult → ℕ → ℕ → List ℕ × ℕ × ℕ × Bool
  | [], processed, t => ([], processed, t, false)
  | r :: rs, processed, t =>
      if stopO t then ([], processed, t + 1, true)
      else
        let rest := writeResults stopO rs (processed + (r.high - r.low + 1)) (t + 1)
        (r.primes ++ rest.1, rest.2.1, rest.2.2.1, rest.2.2.2)

/-- Main segment-group loop of the orchestrator (cpu_engine.rs:131-214), on
an explicit iteration bound.  Returns the primes written, the `Progress`
values delivered and the number of `finish` calls made from the loop
onwards (including the `finish` at cpu_engine.rs:218 on normal exit). -/
def groupLoop (prime_min prime_max segment_size group_size total_range : ℕ)
    (sp : List ℕ) (w : WheelType) (stopO : ℕ → Bool) (stopW : ℕ → ℕ → Bool)
    (elapsedAt : ℕ → ℚ) :
    ℕ → ℕ → ℕ → ℕ → ℕ → List ℕ × List Progress × ℕ
  | 0, _, _, _, _ => ([], [], 0)
  | fuel + 1, seg_start, processed, group_index, t =>
      if seg_start ≤ prime_max then
        if stopO t then ([], [], 1)
        else
          let b := mkBounds prime_max segment_size group_size seg_start
          if b.1 = [] then ([], [], 1)
          else
            let results := b.1.map (runWorker sp w stopW)
            let sorted := sortByLow results
            let out := writeResults stopO sorted processed (t + 1)
            if out.2.2.2 then (out.1, [], 1)
            else
              let processed' := out.2.1
              let eta := compute_eta (min processed' total_range) total_range
                (elapsedAt (group_index + 1))
              let prog : Progress := ⟨min processed' total_range, total_range, eta⟩
              let rest := groupLoop prime_min prime_max segment_size group_size
                total_range sp w stopO stopW elapsedAt fuel b.2 processed'
                (group_index + 1) out.2.2.1
              (out.1 ++ rest.1, prog :: rest.2.1, rest.2.2)
      else ([], [], 1)

/-- The engine inputs the claims quantify over (the numeric fields of
`Config` consumed by `generate_primes_cpu`). -/
structure SieveConfig where
  prime_min : ℕ
  prime_max : ℕ
  wheel_type : WheelType

/-- Observable outcome of one `generate_primes_cpu` run: the arguments of
all `write_prime` calls in order, the `Progress` values delivered in order,
the number of `finish` calls, and whether the run returned `Ok`. -/
structure RunOutput where
  writes : List ℕ
  progresses : List Progress
  finishes : ℕ
  ok : Bool

/-- Translation of `generate_primes_cpu` (cpu_engine.rs:23-220).
`segment_size` and `group_size` stand for the environment-derived effective
segment size (always ≥ 1 in the source: the memory advisor clamps to
`[1_000_000, 100_000_000]`) and `num_threads.max(1)` (always ≥ 1);
`stopO` / `stopW` are the poll streams of the orchestrator and of each
worker; `elapsedAt g` is the elapsed wall-clock seconds observed after
group `g`. -/
def generate_primes_cpu (cfg : SieveConfig) (segment_size group_size : ℕ)
    (stopO : ℕ → Bool) (stopW : ℕ → ℕ → Bool) (elapsedAt : ℕ → ℚ) : RunOutput :=
  if cfg.prime_min > cfg.prime_max then ⟨[], [], 0, false⟩
  else
    let prime_min := cfg.prime_min
    let prime_max := cfg.prime_max
    let total_range := prime_max - prime_min + 1
    let w := cfg.wheel_type
    if stopO 0 then ⟨[], [], 0, true⟩
    else
      let root := integer_sqrt prime_max + 1
      let small_primes := simple_sieve root
      let excluded := wheelExcluded w
      let exWrites := excluded.filter fun p => decide (prime_min ≤ p) && decide (p ≤ prime_max)
      let sieve_start := (excluded.getLast?.map (· + 1)).getD prime_min
      if sieve_start > prime_max then
        ⟨exWrites, [⟨total_range, total_range, some 0⟩], 1, true⟩
      else
        let seg_start := max sieve_start prime_min
        if seg_start > prime_max then ⟨exWrites, [], 1, true⟩
        else
          let processed := seg_start - prime_min
          let r := groupLoop prime_min prime_max segment_size group_size total_range
            small_primes w stopO stopW elapsedAt (prime_max + 2) seg_start processed 0 1
          ⟨exWrites ++ r.1, r.2.1, r.2.2, true⟩

/-- Wheel-validity (candidate) predicate, as checked by `n_to_index`. -/
def wheelCand (w : WheelType) (n : ℕ) : Prop :=
  match w with
  | .Odd => n % 2 = 1
  | .Mod6 => n % 6 = 1 ∨ n % 6 = 5
  | .Mod30 => mod30Idx (n % 30) ≠ 255

instance (w : WheelType) (n : ℕ) : Decidable (wheelCand w n) := by
  cases w <;> simp only [wheelCand] <;> infer_instance

/-- Candidate reconstruction from rank, mod-6 wheel (the `period * 6 + 1/5`
computation of `index_to_n`). -/
def recon6 (k : ℕ) : ℕ := if k % 2 = 0 then k / 2 * 6 + 1 else k / 2 * 6 + 5

/-- Candidate reconstruction from rank, mod-30 wheel (the
`period * 30 + MOD30_PATTERN[offset]` computation of `index_to_n`). -/
def recon30 (k : ℕ) : ℕ := k / 8 * 30 + MOD30_PATTERN.getD (k % 8) 0

/-- Rank of candidate `n` relative to candidate `low`: the value wrapped in
`some` by `n_to_index` on its success path. -/
def rankFrom (w : WheelType) (low n : ℕ) : ℕ :=
  match w with
  | .Odd => (n - low) / 2
  | .Mod6 => inPeriod6 n - inPeriod6 low
  | .Mod30 => inPeriod30 n - inPeriod30 low

/-- Offset found by the linear search of `adjust_low` for the mod-30 wheel,
as a function of the residue `low % 30`. -/
def adjOff (r : ℕ) : ℕ :=
  ((List.range' 1 29).find? (fun o => mod30Idx ((r + o) % 30) ≠ 255)).getD 0

/-- Invariant of the outer `simple_sieve` loop after processing all
divisor candidates below `i`. -/
def sieveInv (limit i : ℕ) (arr : ℕ → Bool) : Prop :=
  ∀ j, j ≤ limit →
    (arr j = true ↔ 2 ≤ j ∧ ∀ d, 2 ≤ d → d < i → ¬(d ∣ j ∧ d * d ≤ j))

/-- Bit indices cleared by the marking progression for one prime, starting
at the value `n` and stepping by `p`. -/
def clearedAt (p high low len : ℕ) (w : WheelType) (n i : ℕ) : Prop :=
  ∃ k, n + k * p ≤ high ∧ n_to_index (n + k * p) low w = some i ∧ i < len

/-- Bit indices cleared by the whole treatment of one small prime `p`: all
wheel candidates that are multiples of `p`, at least `max(low, p*p)`, and at
most `high`. -/
def primeClears (p low high len : ℕ) (w : WheelType) (i : ℕ) : Prop :=
  ∃ m, p ∣ m ∧ low ≤ m ∧ p * p ≤ m ∧ m ≤ high ∧ n_to_index m low w = some i ∧ i < len

/-- Largest prime pre-excluded by the wheel (2, 3 or 5). -/
def lastExcluded (w : WheelType) : ℕ :=
  match w with
  | .Odd => 2
  | .Mod6 => 3
  | .Mod30 => 5

theorem index_to_n_mod6 (idx low : ℕ) :
    index_to_n idx low .Mod6 = recon6 (inPeriod6 low + idx) := rfl

theorem index_to_n_mod30 (idx low : ℕ) :
    index_to_n idx low .Mod30 = recon30 (inPeriod30 low + idx) := rfl

theorem mod30_table_spec : ∀ r < 30, mod30Idx r ≠ 255 →
    mod30Idx r < 8 ∧ MOD30_PATTERN.getD (mod30Idx r) 0 = r := by decide

theorem mod30_pattern_spec : ∀ j < 8,
    MOD30_PATTERN.getD j 0 < 30 ∧ mod30Idx (MOD30_PATTERN.getD j 0) = j := by decide

theorem mod30_pattern_mono : ∀ j < 8, ∀ j' < 8, j < j' →
    MOD30_PATTERN.getD j 0 < MOD30_PATTERN.getD j' 0 := by decide

theorem mod30Idx_default (r : ℕ) (h : 30 ≤ r) : mod30Idx r = 255 := by
  have hl : MOD30_TO_INDEX.length = 30 := by decide
  rw [mod30Idx, List.getD_eq_default]
  omega

theorem recon6_succ (k : ℕ) : recon6 k < recon6 (k + 1) := by
  simp only [recon6]
  split_ifs <;> omega

theorem recon30_succ (k : ℕ) : recon30 k < recon30 (k + 1) := by
  simp only [recon30]
  have h8 : k % 8 < 8 := Nat.mod_lt _ (by norm_num)
  rcases Nat.lt_or_ge (k % 8) 7 with h7 | h7
  · have e1 : (k + 1) % 8 = k % 8 + 1 := by omega
    have e2 : (k + 1) / 8 = k / 8 := by omega
    rw [e1, e2]
    have := mod30_pattern_mono (k % 8) h8 (k % 8 + 1) (by omega) (by omega)
    omega
  · have e0 : k % 8 = 7 := by omega
    have e1 : (k + 1) % 8 = 0 := by omega
    have e2 : (k + 1) / 8 = k / 8 + 1 := by omega
    rw [e0, e1, e2]
    have p7 : MOD30_PATTERN.getD 7 0 = 29 := by decide
    have p0 : MOD30_PATTERN.getD 0 0 = 1 := by decide
    rw [p7, p0]
    omega

theorem recon6_strictMono : StrictMono recon6 :=
  strictMono_nat_of_lt_succ recon6_succ

theorem recon30_strictMono : StrictMono recon30 :=
  strictMono_nat_of_lt_succ recon30_succ

theorem recon6_inPeriod6 {n : ℕ} (h : wheelCand .Mod6 n) : recon6 (inPeriod6 n) = n := by
  rcases h with h | h <;>
  · simp only [recon6, inPeriod6, h]
    split_ifs <;> omega

theorem recon30_inPeriod30 {n : ℕ} (h : wheelCand .Mod30 n) :
    recon30 (inPeriod30 n) = n := by
  have hr : n % 30 < 30 := Nat.mod_lt _ (by norm_num)
  obtain ⟨hlt, heq⟩ := mod30_table_spec (n % 30) hr h
  simp only [recon30, inPeriod30]
  have e1 : (n / 30 * 8 + mod30Idx (n % 30)) / 8 = n / 30 := by omega
  have e2 : (n / 30 * 8 + mod30Idx (n % 30)) % 8 = mod30Idx (n % 30) := by omega
  rw [e1, e2, heq]
  omega

theorem inPeriod6_recon6 (k : ℕ) : inPeriod6 (recon6 k) = k := by
  simp only [recon6, inPeriod6]
  split_ifs <;> omega

theorem inPeriod30_recon30 (k : ℕ) : inPeriod30 (recon30 k) = k := by
  have h8 : k % 8 < 8 := Nat.mod_lt _ (by norm_num)
  obtain ⟨hlt, heq⟩ := mod30_pattern_spec (k % 8) h8
  simp only [recon30, inPeriod30]
  have e1 : (k / 8 * 30 + MOD30_PATTERN.getD (k % 8) 0) / 30 = k / 8 := by omega
  have e2 : (k / 8 * 30 + MOD30_PATTERN.getD (k % 8) 0) % 30 =
      MOD30_PATTERN.getD (k % 8) 0 := by omega
  rw [e1, e2, heq]
  omega

theorem recon6_cand (k : ℕ) : wheelCand .Mod6 (recon6 k) := by
  simp only [recon6, wheelCand]
  split_ifs <;> omega

theorem recon30_cand (k : ℕ) : wheelCand .Mod30 (recon30 k) := by
  have h8 : k % 8 < 8 := Nat.mod_lt _ (by norm_num)
  obtain ⟨hlt, heq⟩ := mod30_pattern_spec (k % 8) h8
  simp only [recon30, wheelCand]
  have e2 : (k / 8 * 30 + MOD30_PATTERN.getD (k % 8) 0) % 30 =
      MOD30_PATTERN.getD (k % 8) 0 := by omega
  rw [e2, heq]
  omega

theorem inPeriod6_mono {a b : ℕ} (ha : wheelCand .Mod6 a) (hb : wheelCand .Mod6 b)
    (h : a ≤ b) : inPeriod6 a ≤ inPeriod6 b := by
  by_contra hlt
  have := recon6_strictMono (show inPeriod6 b < inPeriod6 a by omega)
  rw [recon6_inPeriod6 ha, recon6_inPeriod6 hb] at this
  omega

theorem inPeriod30_mono {a b : ℕ} (ha : wheelCand .Mod30 a) (hb : wheelCand .Mod30 b)
    (h : a ≤ b) : inPeriod30 a ≤ inPeriod30 b := by
  by_contra hlt
  have := recon30_strictMono (show inPeriod30 b < inPeriod30 a by omega)
  rw [recon30_inPeriod30 ha, recon30_inPeriod30 hb] at this
  omega

theorem n_to_index_eq_some {w : WheelType} {n low : ℕ} (hl : wheelCand w low)
    (hn : wheelCand w n) (h : low ≤ n) :
    n_to_index n low w = some (rankFrom w low n) := by
  cases w <;> simp only [n_to_index, rankFrom, wheelCand] at * <;>
    split_ifs with h1 h2 <;> first | rfl | omega

theorem n_to_index_none_of_not_cand {w : WheelType} {n low : ℕ}
    (hn : ¬ wheelCand w n) : n_to_index n low w = none := by
  cases w <;> simp only [n_to_index, wheelCand] at * <;>
    split_ifs with h1 h2 <;> first | rfl | omega

theorem n_to_index_none_of_lt {w : WheelType} {n low : ℕ} (h : n < low) :
    n_to_index n low w = none := by
  simp [n_to_index, h]

theorem n_to_index_isSome_iff {w : WheelType} {n low : ℕ} (hl : wheelCand w low) :
    (n_to_index n low w).isSome = true ↔ wheelCand w n ∧ low ≤ n := by
  constructor
  · intro hs
    by_cases hn : wheelCand w n
    · by_cases hge : low ≤ n
      · exact ⟨hn, hge⟩
      · rw [n_to_index_none_of_lt (by omega)] at hs
        simp at hs
    · rw [n_to_index_none_of_not_cand hn] at hs
      simp at hs
  · rintro ⟨hn, hge⟩
    rw [n_to_index_eq_some hl hn hge]
    rfl

theorem index_to_n_rankFrom {w : WheelType} {n low : ℕ} (hl : wheelCand w low)
    (hn : wheelCand w n) (h : low ≤ n) : index_to_n (rankFrom w low n) low w = n := by
  cases w
  · simp only [index_to_n, rankFrom, wheelCand] at *
    omega
  · rw [index_to_n_mod6, rankFrom]
    have hm := inPeriod6_mono hl hn h
    rw [show inPeriod6 low + (inPeriod6 n - inPeriod6 low) = inPeriod6 n by omega]
    exact recon6_inPeriod6 hn
  · rw [index_to_n_mod30, rankFrom]
    have hm := inPeriod30_mono hl hn h
    rw [show inPeriod30 low + (inPeriod30 n - inPeriod30 low) = inPeriod30 n by omega]
    exact recon30_inPeriod30 hn

theorem index_to_n_strictMono {w : WheelType} (low : ℕ) :
    StrictMono (fun i => index_to_n i low w) := by
  cases w
  · intro i j hij
    simp only [index_to_n]
    omega
  · intro i j hij
    simp only [index_to_n_mod6]
    exact recon6_strictMono (by omega)
  · intro i j hij
    simp only [index_to_n_mod30]
    exact recon30_strictMono (by omega)

theorem index_to_n_cand {w : WheelType} {low : ℕ} (hl : wheelCand w low) (i : ℕ) :
    wheelCand w (index_to_n i low w) := by
  cases w
  · simp only [index_to_n, wheelCand] at *
    omega
  · rw [index_to_n_mod6]
    exact recon6_cand _
  · rw [index_to_n_mod30]
    exact recon30_cand _

theorem low_le_index_to_n {w : WheelType} {low : ℕ} (hl : wheelCand w low) (i : ℕ) :
    low ≤ index_to_n i low w := by
  have h0 : index_to_n 0 low w = low := by
    cases w
    · simp [index_to_n]
    · rw [index_to_n_mod6, Nat.add_zero]
      exact recon6_inPeriod6 hl
    · rw [index_to_n_mod30, Nat.add_zero]
      exact recon30_inPeriod30 hl
  rcases Nat.eq_zero_or_pos i with rfl | hi
  · omega
  · have h2 : index_to_n 0 low w < index_to_n i low w :=
      index_to_n_strictMono (w := w) low (show 0 < i by omega)
    omega

theorem rankFrom_index_to_n {w : WheelType} {low : ℕ} (hl : wheelCand w low) (i : ℕ) :
    rankFrom w low (index_to_n i low w) = i := by
  cases w
  · simp only [index_to_n, rankFrom, wheelCand] at *
    omega
  · simp only [index_to_n_mod6, rankFrom, inPeriod6_recon6]
    omega
  · simp only [index_to_n_mod30, rankFrom, inPeriod30_recon30]
    omega

theorem n_to_index_index_to_n {w : WheelType} {low : ℕ} (hl : wheelCand w low) (i : ℕ) :
    n_to_index (index_to_n i low w) low w = some i := by
  rw [n_to_index_eq_some hl (index_to_n_cand hl i) (low_le_index_to_n hl i),
    rankFrom_index_to_n hl i]

theorem mod30_table_strictMono : ∀ a < 30, ∀ b < 30, mod30Idx a ≠ 255 →
    mod30Idx b ≠ 255 → a < b → mod30Idx a < mod30Idx b := by decide

/-- Every wheel-valid candidate of a segment has its rank strictly below the
allocated bit-array size: the `idx < len` guard (cpu_engine.rs:299) never
discards an in-range candidate. -/
theorem rankFrom_lt_size {w : WheelType} {low n high : ℕ} (hl : wheelCand w low)
    (hn : wheelCand w n) (h1 : low ≤ n) (h2 : n ≤ high) :
    rankFrom w low n < calculate_bitvec_size low high w := by
  cases w
  · simp only [rankFrom, calculate_bitvec_size]
    omega
  · simp only [rankFrom, calculate_bitvec_size, inPeriod6, wheelCand] at *
    rcases hn with hn | hn <;> rcases hl with hl | hl <;> simp only [hn, hl] <;>
      norm_num <;> omega
  · simp only [rankFrom, calculate_bitvec_size, inPeriod30, wheelCand] at *
    have hrn : n % 30 < 30 := Nat.mod_lt _ (by norm_num)
    have hrl : low % 30 < 30 := Nat.mod_lt _ (by norm_num)
    have bn := (mod30_table_spec (n % 30) hrn hn).1
    have bl := (mod30_table_spec (low % 30) hrl hl).1
    rcases Nat.lt_or_ge (n % 30) (low % 30) with hc | hc
    · have := mod30_table_strictMono (n % 30) hrn (low % 30) hrl hn hl hc
      omega
    · rcases Nat.lt_or_ge (low % 30) (n % 30) with hc2 | hc2
      · have := mod30_table_strictMono (low % 30) hrl (n % 30) hrn hl hn hc2
        omega
      · have : low % 30 = n % 30 := by omega
        rw [this]
        omega

theorem adjOff_spec : ∀ r < 30, mod30Idx r = 255 →
    1 ≤ adjOff r ∧ adjOff r ≤ 29 ∧ mod30Idx ((r + adjOff r) % 30) ≠ 255 ∧
    (List.range' 1 29).find? (fun o => decide (mod30Idx ((r + o) % 30) ≠ 255))
      = some (adjOff r) ∧
    ∀ o, 1 ≤ o → o < adjOff r → mod30Idx ((r + o) % 30) = 255 := by decide

theorem adjust30_eq (low : ℕ) (h : mod30Idx (low % 30) = 255) :
    adjust30 low = low + adjOff (low % 30) := by
  have h30 : low % 30 < 30 := Nat.mod_lt _ (by norm_num)
  obtain ⟨-, -, -, hfind, -⟩ := adjOff_spec (low % 30) h30 h
  rw [adjust30, hfind]

theorem le_adjust_low (low : ℕ) (w : WheelType) : low ≤ adjust_low low w := by
  cases w
  · simp only [adjust_low]
    split_ifs <;> omega
  · have h6 : low % 6 = 0 ∨ low % 6 = 1 ∨ low % 6 = 2 ∨ low % 6 = 3 ∨ low % 6 = 4 ∨
        low % 6 = 5 := by omega
    rcases h6 with h | h | h | h | h | h <;> simp only [adjust_low, h] <;> omega
  · simp only [adjust_low]
    split_ifs with h
    · omega
    · rw [adjust30_eq low (by simpa using h)]
      omega

theorem adjust_low_cand (low : ℕ) (w : WheelType) : wheelCand w (adjust_low low w) := by
  cases w
  · simp only [adjust_low, wheelCand]
    split_ifs <;> omega
  · have h6 : low % 6 = 0 ∨ low % 6 = 1 ∨ low % 6 = 2 ∨ low % 6 = 3 ∨ low % 6 = 4 ∨
        low % 6 = 5 := by omega
    rcases h6 with h | h | h | h | h | h <;> simp only [adjust_low, h, wheelCand] <;>
      first | omega | tauto
  · simp only [adjust_low, wheelCand]
    split_ifs with h
    · simpa using h
    · push_neg at h
      have h30 : low % 30 < 30 := Nat.mod_lt _ (by norm_num)
      obtain ⟨-, -, hc, -, -⟩ := adjOff_spec (low % 30) h30 (by simpa using h)
      rw [adjust30_eq low (by simpa using h)]
      have e : (low + adjOff (low % 30)) % 30 = (low % 30 + adjOff (low % 30)) % 30 := by
        omega
      rw [e]
      exact hc

theorem adjust_low_le_of_cand {w : WheelType} {low c : ℕ} (hc : wheelCand w c)
    (h : low ≤ c) : adjust_low low w ≤ c := by
  cases w
  · simp only [adjust_low, wheelCand] at *
    split_ifs <;> omega
  · have h6 : low % 6 = 0 ∨ low % 6 = 1 ∨ low % 6 = 2 ∨ low % 6 = 3 ∨ low % 6 = 4 ∨
        low % 6 = 5 := by omega
    simp only [wheelCand] at hc
    rcases h6 with hl | hl | hl | hl | hl | hl <;> simp only [adjust_low, hl] <;> omega
  · simp only [adjust_low, wheelCand] at *
    split_ifs with hcl
    · omega
    · push_neg at hcl
      have hcl' : mod30Idx (low % 30) = 255 := by simpa using hcl
      rw [adjust30_eq low hcl']
      by_contra hlt
      push_neg at hlt
      have h30 : low % 30 < 30 := Nat.mod_lt _ (by norm_num)
      obtain ⟨h1, -, -, -, hmin⟩ := adjOff_spec (low % 30) h30 hcl'
      set o := c - low with ho
      rcases Nat.eq_zero_or_pos o with h0 | hpos
      · have : c = low := by omega
        rw [this] at hc
        exact hc hcl'
      · have e : c % 30 = (low % 30 + o) % 30 := by omega
        have := hmin o hpos (by omega)
        rw [e] at hc
        exact hc this

theorem mod30_cand_iff : ∀ r < 30,
    (mod30Idx r ≠ 255 ↔ r % 2 = 1 ∧ r % 3 ≠ 0 ∧ r % 5 ≠ 0) := by decide

theorem not_dvd_of_prime_not_excluded {p q : ℕ} (hp : p.Prime) (hq : q.Prime)
    (hne : p ≠ q) : ¬ q ∣ p := by
  intro hdvd
  rcases (Nat.Prime.eq_one_or_self_of_dvd hp q hdvd) with h | h
  · exact hq.one_lt.ne' h
  · exact hne h.symm

theorem cand_of_prime {w : WheelType} {p : ℕ} (hp : p.Prime)
    (hex : p ∉ wheelExcluded w) : wheelCand w p := by
  cases w
  · have h2 : p ≠ 2 := by simpa [wheelExcluded] using hex
    have := Nat.odd_iff.mp (hp.odd_of_ne_two h2)
    simpa [wheelCand] using this
  · have h2 : p ≠ 2 ∧ p ≠ 3 := by simpa [wheelExcluded] using hex
    have d2 : ¬ (2 ∣ p) := not_dvd_of_prime_not_excluded hp Nat.prime_two h2.1
    have d3 : ¬ (3 ∣ p) := not_dvd_of_prime_not_excluded hp Nat.prime_three h2.2
    simp only [wheelCand]
    omega
  · have h2 : p ≠ 2 ∧ p ≠ 3 ∧ p ≠ 5 := by simpa [wheelExcluded] using hex
    have d2 : ¬ (2 ∣ p) := not_dvd_of_prime_not_excluded hp Nat.prime_two h2.1
    have d3 : ¬ (3 ∣ p) := not_dvd_of_prime_not_excluded hp Nat.prime_three h2.2.1
    have d5 : ¬ (5 ∣ p) := not_dvd_of_prime_not_excluded hp Nat.prime_five h2.2.2
    have h30 : p % 30 < 30 := Nat.mod_lt _ (by norm_num)
    simp only [wheelCand]
    rw [mod30_cand_iff (p % 30) h30]
    omega

theorem cand_not_dvd {w : WheelType} {n q : ℕ} (hc : wheelCand w n)
    (hq : q ∈ wheelExcluded w) : ¬ q ∣ n := by
  cases w
  · have : q = 2 := by simpa [wheelExcluded] using hq
    subst this
    simp only [wheelCand] at hc
    omega
  · have : q = 2 ∨ q = 3 := by simpa [wheelExcluded] using hq
    simp only [wheelCand] at hc
    rcases this with rfl | rfl <;> omega
  · have : q = 2 ∨ q = 3 ∨ q = 5 := by
      have := hq
      simp only [wheelExcluded, List.mem_cons, List.mem_singleton,
        List.not_mem_nil, or_false] at this
      tauto
    have h30 : n % 30 < 30 := Nat.mod_lt _ (by norm_num)
    simp only [wheelCand] at hc
    have := (mod30_cand_iff (n % 30) h30).mp hc
    rcases this with ⟨h2, h3, h5⟩
    rcases ‹q = 2 ∨ q = 3 ∨ q = 5› with rfl | rfl | rfl <;> omega

theorem wheelSkip_iff {w : WheelType} {p : ℕ} :
    wheelSkip w p = true ↔ p ∈ wheelExcluded w := by
  cases w <;> simp [wheelSkip, wheelExcluded] <;> tauto

/-- C7: for each wheel type, for every wheel-valid `low` and wheel-valid
`n ≥ low`, `n_to_index` returns `Some index` and `index_to_n` maps that
index back to `n`. -/
theorem claim_c7_wheel_roundtrip (w : WheelType) (low n : ℕ)
    (hl : wheelCand w low) (hn : wheelCand w n) (h : low ≤ n) :
    ∃ i, n_to_index n low w = some i ∧ index_to_n i low w = n :=
  ⟨rankFrom w low n, n_to_index_eq_some hl hn h, index_to_n_rankFrom hl hn h⟩

theorem claim_c7_wheel_roundtrip_witness :
    wheelCand .Mod30 7 ∧ wheelCand .Mod30 31 ∧ 7 ≤ 31 ∧
    ∃ i, n_to_index 31 7 .Mod30 = some i ∧ index_to_n i 7 .Mod30 = 31 :=
  ⟨by decide, by decide, by decide,
    claim_c7_wheel_roundtrip .Mod30 7 31 (by decide) (by decide) (by decide)⟩

/-- C10: `n_to_index` is total and panic-free: both residue-table lookups
are in bounds (`n % 30 < 30 = MOD30_TO_INDEX.length`), and the period-count
subtractions performed on the success paths (`inPeriod6 n - inPeriod6 low`
for Mod6, `inPeriod30 n - inPeriod30 low` for Mod30, and `n - low` for Odd)
never underflow, because they are reached only after the `n < low` check
and the candidate checks on both `n` and `low` have passed. -/
theorem claim_c10_n_to_index_safety : ∀ n low : ℕ,
    n % 30 < MOD30_TO_INDEX.length ∧ low % 30 < MOD30_TO_INDEX.length ∧
    (low ≤ n → wheelCand .Mod6 n → wheelCand .Mod6 low →
      inPeriod6 low ≤ inPeriod6 n) ∧
    (low ≤ n → wheelCand .Mod30 n → wheelCand .Mod30 low →
      inPeriod30 low ≤ inPeriod30 n) ∧
    (low ≤ n → wheelCand .Odd n → wheelCand .Odd low → low ≤ n) := by
  intro n low
  have hlen : MOD30_TO_INDEX.length = 30 := by decide
  refine ⟨by omega, by omega, ?_, ?_, fun h _ _ => h⟩
  · intro h hn hl
    exact inPeriod6_mono hl hn h
  · intro h hn hl
    exact inPeriod30_mono hl hn h

theorem claim_c10_n_to_index_safety_witness :
    31 % 30 < MOD30_TO_INDEX.length ∧ inPeriod30 7 ≤ inPeriod30 31 :=
  ⟨(claim_c10_n_to_index_safety 31 7).1,
    (claim_c10_n_to_index_safety 31 7).2.2.2.1 (by decide) (by decide) (by decide)⟩

theorem sqrtLoop_eq (n : ℕ) : ∀ fuel low high, low ≤ Nat.sqrt n + 1 →
    Nat.sqrt n ≤ high → high + 2 - low ≤ fuel →
    sqrtLoop n fuel low high = Nat.sqrt n := by
  intro fuel
  induction fuel with
  | zero => intro low high h1 h2 h3; omega
  | succ fuel ih =>
    intro low high h1 h2 h3
    simp only [sqrtLoop]
    split_ifs with hle heq hlt
    · rw [← heq, Nat.sqrt_eq]
    · have hm : (low + high) / 2 ≤ Nat.sqrt n := Nat.le_sqrt.mpr (by omega)
      exact ih ((low + high) / 2 + 1) high (by omega) h2 (by omega)
    · have hm : Nat.sqrt n < (low + high) / 2 := by
        by_contra hc
        push_neg at hc
        have h4 := Nat.mul_self_le_mul_self hc
        have h5 := Nat.sqrt_le n
        omega
      exact ih low ((low + high) / 2 - 1) h1 (by omega) (by omega)
    · omega

/-- The binary search of `integer_sqrt` computes exactly `Nat.sqrt`. -/
theorem integer_sqrt_eq_sqrt (n : ℕ) : integer_sqrt n = Nat.sqrt n := by
  rw [integer_sqrt]
  exact sqrtLoop_eq n (n + 2) 0 n (by omega) (Nat.sqrt_le_self n) (by omega)

/-- C8: for every `n`, `integer_sqrt n` is the largest integer `r` with
`r * r ≤ n`; in particular `integer_sqrt 0 = 0`, and the function is a
total deterministic function of `n`. -/
theorem claim_c8_integer_sqrt (n : ℕ) :
    integer_sqrt n * integer_sqrt n ≤ n ∧ (∀ r, r * r ≤ n → r ≤ integer_sqrt n) ∧
    integer_sqrt 0 = 0 := by
  rw [integer_sqrt_eq_sqrt]
  exact ⟨Nat.sqrt_le n, fun r hr => Nat.le_sqrt.mpr hr, rfl⟩

theorem claim_c8_integer_sqrt_witness :
    integer_sqrt 10 * integer_sqrt 10 ≤ 10 ∧ 3 ≤ integer_sqrt 10 :=
  ⟨(claim_c8_integer_sqrt 10).1, (claim_c8_integer_sqrt 10).2.1 3 (by decide)⟩

theorem compute_eta_none_iff (p t : ℕ) (e : ℚ) :
    compute_eta p t e = none ↔ t = 0 ∨ p = 0 := by
  simp only [compute_eta]
  split_ifs with h0 hpos
  · simp [h0]
  · simp only [reduceCtorEq, false_iff]
    intro hor
    rcases hor with h | h
    · exact h0 h
    · rw [h] at hpos
      simp at hpos
  · simp only [true_iff]
    right
    by_contra hp
    have htq : (0:ℚ) < t := by
      exact_mod_cast Nat.pos_of_ne_zero h0
    have hmin : 0 < min p t := by
      have := Nat.pos_of_ne_zero hp
      have := Nat.pos_of_ne_zero h0
      omega
    exact hpos (div_pos (by exact_mod_cast hmin) htq)

theorem compute_eta_some (p t : ℕ) (e : ℚ) (ht : t ≠ 0) (hp : p ≠ 0) (he : 0 ≤ e) :
    compute_eta p t e = some (roundQ (max 0 (e / ((p : ℚ) / (t : ℚ)) - e))) := by
  simp only [compute_eta]
  have htq : (0:ℚ) < t := by exact_mod_cast Nat.pos_of_ne_zero ht
  have hmin : 0 < min p t := by
    have := Nat.pos_of_ne_zero hp
    have := Nat.pos_of_ne_zero ht
    omega
  have hprog : (0:ℚ) < ((min p t : ℕ) : ℚ) / (t : ℚ) :=
    div_pos (by exact_mod_cast hmin) htq
  rw [if_neg ht, if_pos hprog]
  rcases le_or_lt p t with hle | hlt
  · rw [min_eq_left hle, max_comm]
  · rw [min_eq_right (le_of_lt hlt)]
    have h1 : ((t : ℕ) : ℚ) / (t : ℚ) = 1 := div_self htq.ne'
    have hq1 : (1:ℚ) ≤ (p : ℚ) / (t : ℚ) := by
      rw [le_div_iff htq, one_mul]
      exact_mod_cast le_of_lt hlt
    have hv : e / ((p : ℚ) / (t : ℚ)) - e ≤ 0 := by
      have := div_le_self he hq1
      linarith
    simp only [h1, div_one, sub_self, max_self, max_eq_left hv]

theorem compute_eta_example : compute_eta 50 100 10 = some 10 := by
  rw [compute_eta_some 50 100 10 (by norm_num) (by norm_num) (by norm_num)]
  have h1 : max 0 ((10 : ℚ) / (((50 : ℕ) : ℚ) / ((100 : ℕ) : ℚ)) - 10) = 10 := by
    norm_num
  rw [h1, roundQ]
  have hf : ((10 : ℚ) + 1 / 2).floor = 10 := by
    have hle : (10 : ℤ) ≤ ((10 : ℚ) + 1 / 2).floor := Rat.le_floor.mpr (by norm_num)
    have hlt : ¬ (11 : ℤ) ≤ ((10 : ℚ) + 1 / 2).floor := by
      rw [Rat.le_floor]
      norm_num
    omega
  rw [hf]
  rfl

/-- C6: `compute_eta` returns `None` iff `total = 0` or `processed = 0`;
otherwise (for the non-negative elapsed times the engine supplies) it
returns `Some` of `max(0, elapsed/(processed/total) - elapsed)` rounded to
the nearest second; in particular `compute_eta 50 100 10.0 = Some 10`.
`f64` arithmetic is modelled by exact rational arithmetic. -/
theorem claim_c6_compute_eta :
    (∀ (p t : ℕ) (e : ℚ), compute_eta p t e = none ↔ t = 0 ∨ p = 0) ∧
    (∀ (p t : ℕ) (e : ℚ), t ≠ 0 → p ≠ 0 → 0 ≤ e →
      compute_eta p t e = some (roundQ (max 0 (e / ((p : ℚ) / (t : ℚ)) - e)))) ∧
    compute_eta 50 100 10 = some 10 :=
  ⟨compute_eta_none_iff, compute_eta_some, compute_eta_example⟩

theorem claim_c6_compute_eta_witness :
    compute_eta 30 100 7
      = some (roundQ (max 0 ((7 : ℚ) / (((30 : ℕ) : ℚ) / ((100 : ℕ) : ℚ)) - 7))) :=
  claim_c6_compute_eta.2.1 30 100 7 (by decide) (by decide) (by norm_num)

theorem markMult_spec (limit i : ℕ) : ∀ fuel j arr m, limit + 1 - j ≤ fuel → 1 ≤ i →
    (markMult limit i fuel j arr m = true ↔
      arr m = true ∧ ¬ ∃ k, m = j + k * i ∧ m ≤ limit) := by
  intro fuel
  induction fuel with
  | zero =>
    intro j arr m hf _
    rw [markMult]
    constructor
    · intro h
      refine ⟨h, ?_⟩
      rintro ⟨k, rfl, hle⟩
      omega
    · exact fun h => h.1
  | succ fuel ih =>
    intro j arr m hf hi
    rw [markMult]
    split_ifs with hj
    · rw [ih (j + i) _ m (by omega) hi]
      by_cases hm : m = j
      · subst hm
        rw [setBit, Function.update_same]
        simp only [Bool.false_eq_true, false_and, false_iff]
        rintro ⟨-, hex⟩
        exact hex ⟨0, by omega, hj⟩
      · rw [setBit, Function.update_noteq hm]
        constructor
        · rintro ⟨ha, hex⟩
          refine ⟨ha, ?_⟩
          rintro ⟨k, hk, hle⟩
          rcases k with - | k'
          · exact hm (by omega)
          · rw [Nat.succ_mul] at hk
            exact hex ⟨k', by omega, hle⟩
        · rintro ⟨ha, hex⟩
          refine ⟨ha, ?_⟩
          rintro ⟨k, hk, hle⟩
          refine hex ⟨k + 1, ?_, hle⟩
          rw [Nat.succ_mul]
          omega
    · constructor
      · intro h
        refine ⟨h, ?_⟩
        rintro ⟨k, rfl, hle⟩
        omega
      · exact fun h => h.1

/-- The progression membership `∃ k, m = j + k * i` rephrased through
divisibility, for the start value `j = i * i`. -/
theorem exists_mul_iff_dvd {i m : ℕ} (hi : 1 ≤ i) :
    (∃ k, m = i * i + k * i) ↔ i ∣ m ∧ i * i ≤ m := by
  constructor
  · rintro ⟨k, rfl⟩
    constructor
    · exact ⟨i + k, by ring⟩
    · omega
  · rintro ⟨⟨c, rfl⟩, hle⟩
    have hci : i ≤ c := by
      by_contra hc
      push_neg at hc
      have : i * c < i * i := Nat.mul_lt_mul_of_le_of_lt (le_refl i) hc (by omega)
      omega
    refine ⟨c - i, ?_⟩
    rw [Nat.sub_mul]
    have h1 : i * i ≤ c * i := Nat.mul_le_mul_right i hci
    have hcomm : i * c = c * i := Nat.mul_comm i c
    omega

theorem sieveOuter_inv (limit : ℕ) : ∀ count i arr, 2 ≤ i → i + count ≤ limit + 1 →
    sieveInv limit i arr → sieveInv limit (i + count) (sieveOuter limit count i arr) := by
  intro count
  induction count with
  | zero =>
    intro i arr h2 hle hinv
    simpa [sieveOuter] using hinv
  | succ count ih =>
    intro i arr h2 hle hinv
    rw [sieveOuter, show i + (count + 1) = (i + 1) + count by omega]
    apply ih (i + 1) _ (by omega) (by omega)
    intro j hj
    by_cases hai : arr i = true
    · rw [if_pos hai]
      rw [markMult_spec limit i (limit + 1) (i * i) arr j (by omega) (by omega)]
      have hx : (∃ k, j = i * i + k * i ∧ j ≤ limit) ↔ i ∣ j ∧ i * i ≤ j := by
        rw [← exists_mul_iff_dvd (show 1 ≤ i by omega)]
        constructor
        · rintro ⟨k, hk, -⟩
          exact ⟨k, hk⟩
        · rintro ⟨k, hk⟩
          exact ⟨k, hk, hj⟩
      rw [hinv j hj, hx]
      constructor
      · rintro ⟨⟨hj2, hall⟩, hni⟩
        refine ⟨hj2, ?_⟩
        intro d hd2 hdi hdj
        rcases Nat.lt_or_ge d i with hlt | hge
        · exact hall d hd2 hlt hdj
        · have hde : d = i := by omega
          subst hde
          exact hni hdj
      · rintro ⟨hj2, hall⟩
        refine ⟨⟨hj2, fun d hd2 hdi hdj => hall d hd2 (by omega) hdj⟩, ?_⟩
        exact hall i h2 (by omega)
    · rw [if_neg hai]
      have hfalse : ¬ (2 ≤ i ∧ ∀ d, 2 ≤ d → d < i → ¬(d ∣ i ∧ d * d ≤ i)) := by
        intro hcon
        exact hai ((hinv i (by omega)).mpr hcon)
      push_neg at hfalse
      obtain ⟨d, hd2, hdi, hdd⟩ := hfalse h2
      rw [hinv j hj]
      constructor
      · rintro ⟨hj2, hall⟩
        refine ⟨hj2, ?_⟩
        intro e he2 hei hej
        rcases Nat.lt_or_ge e i with hlt | hge
        · exact hall e he2 hlt hej
        · have hee : e = i := by omega
          rw [hee] at hej
          have hdj : d ∣ j := dvd_trans hdd.1 hej.1
          have h1 : i ≤ i * i := Nat.le_mul_of_pos_left i (by omega)
          have h2i := hej.2
          have h3 := hdd.2
          exact hall d hd2 hdi ⟨hdj, by omega⟩
      · rintro ⟨hj2, hall⟩
        exact ⟨hj2, fun e he2 hei hej => hall e he2 (by omega) hej⟩

theorem no_small_divisor_iff_prime {m limit : ℕ} (h2 : 2 ≤ m) (hm : m ≤ limit) :
    (∀ d, 2 ≤ d → d < Nat.sqrt limit + 1 → ¬(d ∣ m ∧ d * d ≤ m)) ↔ m.Prime := by
  constructor
  · intro hall
    by_contra hnp
    have hd := Nat.minFac_prime (show m ≠ 1 by omega)
    have hdvd := Nat.minFac_dvd m
    have hsq : m.minFac * m.minFac ≤ m := by
      have := Nat.minFac_sq_le_self (show 0 < m by omega) hnp
      simpa [Nat.pow_two] using this
    have hle : m.minFac ≤ Nat.sqrt limit := by
      have h1 : m.minFac ≤ Nat.sqrt m := Nat.le_sqrt.mpr hsq
      exact le_trans h1 (Nat.sqrt_le_sqrt hm)
    exact hall m.minFac hd.two_le (by omega) ⟨hdvd, hsq⟩
  · intro hp d hd2 hdlt hdd
    rcases (Nat.Prime.eq_one_or_self_of_dvd hp d hdd.1) with h | h
    · omega
    · subst h
      have := hdd.2
      nlinarith [hp.two_le]

/-- After the outer loop, a surviving entry `m ≤ limit` is exactly a prime. -/
theorem sieve_arr_prime {limit : ℕ} (h2 : 2 ≤ limit) (m : ℕ) (hm : m ≤ limit) :
    sieveOuter limit (integer_sqrt limit + 1 - 2) 2 (fun k => !(k = 0 || k = 1)) m
      = true ↔ m.Prime := by
  have hs1 : 1 ≤ Nat.sqrt limit := Nat.le_sqrt.mpr (by omega)
  have hsl : Nat.sqrt limit ≤ limit := Nat.sqrt_le_self limit
  have hinv0 : sieveInv limit 2 (fun k => !(k = 0 || k = 1)) := by
    intro j hj
    constructor
    · intro hb
      simp only [Bool.not_eq_true', Bool.or_eq_false_iff] at hb
      refine ⟨?_, fun d hd2 hdlt => by omega⟩
      rcases hb with ⟨hb0, hb1⟩
      simp only [decide_eq_false_iff_not] at hb0 hb1
      omega
    · rintro ⟨hj2, -⟩
      simp only [Bool.not_eq_true', Bool.or_eq_false_iff, decide_eq_false_iff_not]
      omega
  have hcount : 2 + (integer_sqrt limit + 1 - 2) = Nat.sqrt limit + 1 := by
    rw [integer_sqrt_eq_sqrt]
    omega
  have := sieveOuter_inv limit (integer_sqrt limit + 1 - 2) 2
    (fun k => !(k = 0 || k = 1)) (by omega)
    (by rw [integer_sqrt_eq_sqrt]; omega) hinv0 m hm
  rw [hcount] at this
  rw [this]
  constructor
  · rintro ⟨hm2, hall⟩
    exact (no_small_divisor_iff_prime hm2 hm).mp hall
  · intro hp
    exact ⟨hp.two_le, (no_small_divisor_iff_prime hp.two_le hm).mpr hp⟩

/-- Membership specification of `simple_sieve`. -/
theorem simple_sieve_mem (limit p : ℕ) :
    p ∈ simple_sieve limit ↔ p.Prime ∧ p ≤ limit := by
  by_cases h2 : limit < 2
  · rw [simple_sieve, if_pos h2]
    simp only [List.not_mem_nil, false_iff]
    rintro ⟨hp, hle⟩
    have := hp.two_le
    omega
  · push_neg at h2
    rw [simple_sieve, if_neg (by omega)]
    simp only [List.mem_filter, List.mem_range']
    constructor
    · rintro ⟨hmem, harr⟩
      obtain ⟨i, hi, hpe⟩ := hmem
      have hple : p ≤ limit := by omega
      exact ⟨(sieve_arr_prime h2 p hple).mp harr, hple⟩
    · rintro ⟨hp, hple⟩
      have h2p := hp.two_le
      exact ⟨⟨p - 2, by omega, by omega⟩, (sieve_arr_prime h2 p hple).mpr hp⟩

/-- The prime list produced by `simple_sieve` is strictly increasing. -/
theorem simple_sieve_pairwise (limit : ℕ) : (simple_sieve limit).Pairwise (· < ·) := by
  rw [simple_sieve]
  split_ifs
  · exact List.Pairwise.nil
  · exact List.Pairwise.filter _ (List.pairwise_lt_range' 2 (limit + 1 - 2) 1 (by omega))

theorem n_to_index_none_of_not_cand_low {w : WheelType} {n low : ℕ}
    (hl : ¬ wheelCand w low) : n_to_index n low w = none := by
  cases w <;> simp only [n_to_index, wheelCand] at * <;> split_ifs <;>
    first | rfl | omega

theorem n_to_index_some_inv {w : WheelType} {n low i : ℕ}
    (h : n_to_index n low w = some i) :
    wheelCand w n ∧ wheelCand w low ∧ low ≤ n ∧ i = rankFrom w low n := by
  by_cases hn : wheelCand w n
  · by_cases hl : wheelCand w low
    · by_cases hge : low ≤ n
      · rw [n_to_index_eq_some hl hn hge] at h
        exact ⟨hn, hl, hge, (Option.some_inj.mp h).symm⟩
      · rw [n_to_index_none_of_lt (by omega)] at h
        cases h
    · rw [n_to_index_none_of_not_cand_low hl] at h
      cases h
  · rw [n_to_index_none_of_not_cand hn] at h
    cases h

theorem index_to_n_inj_of_some {w : WheelType} {n low i : ℕ}
    (h : n_to_index n low w = some i) : index_to_n i low w = n := by
  obtain ⟨hn, hl, hge, hi⟩ := n_to_index_some_inv h
  rw [hi]
  exact index_to_n_rankFrom hl hn hge

theorem clearedAt_step {p high low len : ℕ} {w : WheelType} {n i : ℕ} :
    clearedAt p high low len w n i ↔
      (n ≤ high ∧ n_to_index n low w = some i ∧ i < len) ∨
        clearedAt p high low len w (n + p) i := by
  constructor
  · rintro ⟨k, hle, hsome, hlen⟩
    rcases k with - | k'
    · left
      simp only [Nat.zero_mul, Nat.add_zero] at hle hsome
      exact ⟨hle, hsome, hlen⟩
    · right
      refine ⟨k', ?_, ?_, hlen⟩
      · rw [Nat.succ_mul] at hle
        omega
      · rw [Nat.succ_mul] at hsome
        rw [show n + p + k' * p = n + (k' * p + p) by omega]
        exact hsome
  · rintro (⟨hle, hsome, hlen⟩ | ⟨k, hle, hsome, hlen⟩)
    · exact ⟨0, by omega, by simpa using hsome, hlen⟩
    · refine ⟨k + 1, ?_, ?_, hlen⟩
      · rw [Nat.succ_mul]
        omega
      · rw [Nat.succ_mul, show n + (k * p + p) = n + p + k * p by omega]
        exact hsome

theorem skipToCand_spec (p high low : ℕ) (w : WheelType) (hp : 1 ≤ p) :
    ∀ fuel n, high + 1 - n ≤ fuel →
    ∃ k, skipToCand p high low w fuel n = n + k * p ∧
      (∀ j < k, n + j * p ≤ high ∧ n_to_index (n + j * p) low w = none) ∧
      (n + k * p ≤ high → (n_to_index (n + k * p) low w).isSome = true) := by
  intro fuel
  induction fuel with
  | zero =>
    intro n hf
    refine ⟨0, by rw [skipToCand]; omega, by omega, ?_⟩
    intro h
    omega
  | succ fuel ih =>
    intro n hf
    rw [skipToCand]
    split_ifs with hc
    · obtain ⟨k, hres, hmid, hfin⟩ := ih (n + p) (by omega)
      refine ⟨k + 1, ?_, ?_, ?_⟩
      · rw [hres, Nat.succ_mul]
        omega
      · intro j hj
        rcases j with - | j'
        · simpa using hc
        · have := hmid j' (by omega)
          rw [Nat.succ_mul]
          constructor
          · have := this.1
            omega
          · rw [show n + (j' * p + p) = n + p + j' * p by omega]
            exact this.2
      · rw [Nat.succ_mul, show n + (k * p + p) = n + p + k * p by omega]
        exact hfin
    · push_neg at hc
      refine ⟨0, by simp, by omega, ?_⟩
      intro hle
      simp only [Nat.zero_mul, Nat.add_zero] at hle ⊢
      rcases Option.eq_none_or_eq_some (n_to_index n low w) with h | ⟨v, h⟩
      · exact absurd h (hc hle)
      · simp [h]

theorem clearedAt_skip {p high low len : ℕ} {w : WheelType} (hp : 1 ≤ p)
    (fuel n : ℕ) (hf : high + 1 - n ≤ fuel) (i : ℕ) :
    clearedAt p high low len w n i ↔
      clearedAt p high low len w (skipToCand p high low w fuel n) i := by
  obtain ⟨c, hres, hmid, -⟩ := skipToCand_spec p high low w hp fuel n hf
  rw [hres]
  constructor
  · rintro ⟨k, hle, hsome, hlen⟩
    rcases Nat.lt_or_ge k c with hk | hk
    · exact absurd hsome (by simp [(hmid k hk).2])
    · refine ⟨k - c, ?_, ?_, hlen⟩
      · have he : c * p + (k - c) * p = k * p := by
          rw [← Nat.add_mul]
          congr 1
          omega
        omega
      · have he : c * p + (k - c) * p = k * p := by
          rw [← Nat.add_mul]
          congr 1
          omega
        rw [show n + c * p + (k - c) * p = n + (c * p + (k - c) * p) by omega, he]
        exact hsome
  · rintro ⟨k, hle, hsome, hlen⟩
    refine ⟨c + k, ?_, ?_, hlen⟩
    · have he : (c + k) * p = c * p + k * p := Nat.add_mul c k p
      omega
    · have he : (c + k) * p = c * p + k * p := Nat.add_mul c k p
      rw [show n + (c + k) * p = n + c * p + k * p by omega]
      exact hsome

theorem markLoop_false_spec (p high low len : ℕ) (w : WheelType) (hp : 1 ≤ p) :
    ∀ fuel n bv t, high + 1 - n ≤ fuel →
    ∃ bv' t', markLoop p high low len w (fun _ => false) fuel n bv t = some (bv', t') ∧
      ∀ i, bv' i = true ↔ (bv i = true ∧ ¬ clearedAt p high low len w n i) := by
  intro fuel
  induction fuel with
  | zero =>
    intro n bv t hf
    refine ⟨bv, t, by rw [markLoop], ?_⟩
    intro i
    constructor
    · intro hb
      refine ⟨hb, ?_⟩
      rintro ⟨k, hle, -, -⟩
      omega
    · exact fun h => h.1
  | succ fuel ih =>
    intro n bv t hf
    rw [markLoop]
    split_ifs with hn hstop
    · simp at hstop
    · obtain ⟨c, hres, hmid, -⟩ :=
        skipToCand_spec p high low w hp (high + 1) (n + p) (by omega)
      obtain ⟨bv', t', hrun, hchar⟩ := ih (skipToCand p high low w (high + 1) (n + p))
        (match n_to_index n low w with
          | some idx => if idx < len then setBit bv idx false else bv
          | none => bv) (t + 1) (by rw [hres]; omega)
      refine ⟨bv', t', hrun, ?_⟩
      intro i
      rw [hchar i]
      rw [← clearedAt_skip hp (high + 1) (n + p) (by omega) i]
      rw [show (clearedAt p high low len w n i ↔
        (n ≤ high ∧ n_to_index n low w = some i ∧ i < len) ∨
          clearedAt p high low len w (n + p) i) from clearedAt_step]
      rcases hcase : n_to_index n low w with - | idx
      · simp only [hcase]
        constructor
        · rintro ⟨hb, hnc⟩
          refine ⟨hb, ?_⟩
          rintro (⟨-, hs, -⟩ | hc)
          · cases hs
          · exact hnc hc
        · rintro ⟨hb, hnc⟩
          exact ⟨hb, fun hc => hnc (Or.inr hc)⟩
      · simp only [hcase]
        by_cases hil : idx < len
        · rw [if_pos hil]
          by_cases hii : i = idx
          · subst hii
            rw [setBit, Function.update_same]
            simp only [Bool.false_eq_true, false_and, false_iff]
            rintro ⟨-, hnc⟩
            exact hnc (Or.inl ⟨hn, by trivial, hil⟩)
          · rw [setBit, Function.update_noteq hii]
            constructor
            · rintro ⟨hb, hnc⟩
              refine ⟨hb, ?_⟩
              rintro (⟨-, hs, -⟩ | hc)
              · injection hs with hs2
                exact hii hs2.symm
              · exact hnc hc
            · rintro ⟨hb, hnc⟩
              exact ⟨hb, fun hc => hnc (Or.inr hc)⟩
        · rw [if_neg hil]
          constructor
          · rintro ⟨hb, hnc⟩
            refine ⟨hb, ?_⟩
            rintro (⟨-, hs, hlen2⟩ | hc)
            · injection hs with hs2
              omega
            · exact hnc hc
          · rintro ⟨hb, hnc⟩
            exact ⟨hb, fun hc => hnc (Or.inr hc)⟩
    · push_neg at hn
      refine ⟨bv, t, rfl, ?_⟩
      intro i
      constructor
      · intro hb
        refine ⟨hb, ?_⟩
        rintro ⟨k, hle, -, -⟩
        omega
      · exact fun h => h.1

theorem start0_spec {p low : ℕ} (hp : 1 ≤ p) :
    p ∣ (if low % p = 0 then low else low + (p - low % p)) ∧
    low ≤ (if low % p = 0 then low else low + (p - low % p)) ∧
    ∀ m, p ∣ m → low ≤ m → (if low % p = 0 then low else low + (p - low % p)) ≤ m := by
  have hdm := Nat.div_add_mod low p
  have hmlt : low % p < p := Nat.mod_lt low (by omega)
  split_ifs with h0
  · refine ⟨?_, le_refl low, fun m _ hm => hm⟩
    exact Nat.dvd_iff_mod_eq_zero.mpr h0
  · refine ⟨⟨low / p + 1, ?_⟩, by omega, ?_⟩
    · rw [Nat.mul_add, Nat.mul_one]
      omega
    · intro m hdvd hm
      obtain ⟨c, rfl⟩ := hdvd
      by_contra hc
      push_neg at hc
      have h1 : p * (low / p) < p * c := by omega
      have h2 : low / p < c := Nat.lt_of_mul_lt_mul_left h1
      have h3 : p * (low / p + 1) ≤ p * c := Nat.mul_le_mul_left p (by omega)
      rw [Nat.mul_add, Nat.mul_one] at h3
      omega

theorem clearedAt_start1 {p low high len : ℕ} {w : WheelType} (hp : 1 ≤ p) (i : ℕ) :
    clearedAt p high low len w
      (if (if low % p = 0 then low else low + (p - low % p)) < p * p then p * p
        else (if low % p = 0 then low else low + (p - low % p))) i ↔
      primeClears p low high len w i := by
  obtain ⟨hd0, hge0, hmin0⟩ := @start0_spec p low hp
  set s0 := if low % p = 0 then low else low + (p - low % p) with hs0
  set s1 := if s0 < p * p then p * p else s0 with hs1
  have hd1 : p ∣ s1 := by
    rw [hs1]
    split_ifs
    · exact Dvd.intro p rfl
    · exact hd0
  have hge1 : low ≤ s1 := by
    rw [hs1]
    split_ifs <;> omega
  have hsq1 : p * p ≤ s1 := by
    rw [hs1]
    split_ifs <;> omega
  have hmin1 : ∀ m, p ∣ m → low ≤ m → p * p ≤ m → s1 ≤ m := by
    intro m hdvd hm hsq
    have := hmin0 m hdvd hm
    rw [hs1]
    split_ifs <;> omega
  constructor
  · rintro ⟨k, hle, hsome, hlen⟩
    refine ⟨s1 + k * p, ?_, by omega, by omega, hle, hsome, hlen⟩
    obtain ⟨c, hc⟩ := hd1
    exact ⟨c + k, by rw [Nat.mul_add, hc, Nat.mul_comm p k]⟩
  · rintro ⟨m, hdvd, hm, hsq, hle, hsome, hlen⟩
    have hs1m : s1 ≤ m := hmin1 m hdvd hm hsq
    have hdd : p ∣ m - s1 := Nat.dvd_sub' hdvd hd1
    refine ⟨(m - s1) / p, ?_, ?_, hlen⟩
    · rw [Nat.div_mul_cancel hdd]
      omega
    · rw [Nat.div_mul_cancel hdd, show s1 + (m - s1) = m by omega]
      exact hsome

theorem sieveLoop_false_spec (high low len : ℕ) (w : WheelType) :
    ∀ sp (bv : ℕ → Bool) (t : ℕ), (∀ q ∈ sp, 2 ≤ q) → sp.Pairwise (· < ·) →
    ∃ bv' t', sieveLoop high low len w (fun _ => false) sp bv t = some (bv', t') ∧
      ∀ i, bv' i = true ↔ (bv i = true ∧
        ¬ ∃ p ∈ sp, wheelSkip w p = false ∧ p * p ≤ high ∧
          primeClears p low high len w i) := by
  intro sp
  induction sp with
  | nil =>
    intro bv t h2 hpw
    refine ⟨bv, t, by rw [sieveLoop], ?_⟩
    intro i
    simp only [List.not_mem_nil, false_and, exists_false, not_false_eq_true, and_true]
  | cons p rest ih =>
    intro bv t h2 hpw
    have hp2 : 2 ≤ p := h2 p (List.mem_cons_self p rest)
    rw [sieveLoop]
    rw [if_neg (show ¬((fun _ : ℕ => false) t = true) by simp)]
    by_cases hskip : wheelSkip w p = true
    · rw [if_pos hskip]
      obtain ⟨bv', t', hrun, hchar⟩ := ih bv (t + 1)
        (fun q hq => h2 q (List.mem_cons_of_mem p hq))
        (List.Pairwise.sublist (List.sublist_cons_self p rest) hpw)
      refine ⟨bv', t', hrun, ?_⟩
      intro i
      rw [hchar i]
      constructor
      · rintro ⟨hb, hnc⟩
        refine ⟨hb, ?_⟩
        rintro ⟨q, hq, hqs, hqsq, hqc⟩
        rcases List.mem_cons.mp hq with rfl | hq'
        · rw [hskip] at hqs
          cases hqs
        · exact hnc ⟨q, hq', hqs, hqsq, hqc⟩
      · rintro ⟨hb, hnc⟩
        refine ⟨hb, ?_⟩
        rintro ⟨q, hq, hqs, hqsq, hqc⟩
        exact hnc ⟨q, List.mem_cons_of_mem p hq, hqs, hqsq, hqc⟩
    · rw [if_neg hskip]
      by_cases hbreak : p * p > high
      · rw [if_pos hbreak]
        refine ⟨bv, t + 1, rfl, ?_⟩
        intro i
        constructor
        · intro hb
          refine ⟨hb, ?_⟩
          rintro ⟨q, hq, -, hqsq, -⟩
          rcases List.mem_cons.mp hq with rfl | hq'
          · omega
          · have hpq : p < q := List.rel_of_pairwise_cons hpw hq'
            have : p * p ≤ q * q := Nat.mul_le_mul (by omega) (by omega)
            omega
        · exact fun h => h.1
      · rw [if_neg hbreak]
        push_neg at hbreak
        obtain ⟨bvm, tm, hmrun, hmchar⟩ := markLoop_false_spec p high low len w (by omega)
          (high + 1)
          (skipToCand p high low w (high + 1)
            (if (if low % p = 0 then low else low + (p - low % p)) < p * p then p * p
              else (if low % p = 0 then low else low + (p - low % p))))
          bv (t + 1) (by omega)
        obtain ⟨bv', t', hrun, hchar⟩ := ih bvm tm
          (fun q hq => h2 q (List.mem_cons_of_mem p hq))
          (List.Pairwise.sublist (List.sublist_cons_self p rest) hpw)
        refine ⟨bv', t', ?_, ?_⟩
        · simp only []
          rw [hmrun]
          exact hrun
        · intro i
          rw [hchar i, hmchar i]
          rw [← clearedAt_skip (by omega : 1 ≤ p) (high + 1) _ (by omega) i,
            clearedAt_start1 (by omega : 1 ≤ p) i]
          constructor
          · rintro ⟨⟨hb, hnp⟩, hnr⟩
            refine ⟨hb, ?_⟩
            rintro ⟨q, hq, hqs, hqsq, hqc⟩
            rcases List.mem_cons.mp hq with rfl | hq'
            · exact hnp hqc
            · exact hnr ⟨q, hq', hqs, hqsq, hqc⟩
          · rintro ⟨hb, hnc⟩
            refine ⟨⟨hb, ?_⟩, ?_⟩
            · intro hpc
              refine hnc ⟨p, List.mem_cons_self p rest, ?_, by omega, hpc⟩
              simp only [Bool.not_eq_true] at hskip
              exact hskip
            · rintro ⟨q, hq', hqs, hqsq, hqc⟩
              exact hnc ⟨q, List.mem_cons_of_mem p hq', hqs, hqsq, hqc⟩

theorem mem_collectPrimes {bv : ℕ → Bool} {len low high : ℕ} {w : WheelType} {c : ℕ} :
    c ∈ collectPrimes bv len low high w ↔
      ∃ i, i < len ∧ bv i = true ∧ index_to_n i low w = c ∧ c ≤ high := by
  simp only [collectPrimes, List.mem_filterMap, List.mem_range]
  constructor
  · rintro ⟨i, hi, hf⟩
    split_ifs at hf with hb hle
    injection hf with hf2
    exact ⟨i, hi, hb, hf2, by omega⟩
  · rintro ⟨i, hi, hb, hn, hle⟩
    refine ⟨i, hi, ?_⟩
    rw [if_pos hb, if_pos (by omega : index_to_n i low w ≤ high), hn]

theorem collectOpt_eq {bv : ℕ → Bool} {high low : ℕ} {w : WheelType} {i x : ℕ}
    (h : (if bv i then
        if index_to_n i low w ≤ high then some (index_to_n i low w) else none
      else none) = some x) :
    x = index_to_n i low w := by
  split_ifs at h
  injection h with h2
  exact h2.symm

theorem collectPrimes_pairwise (bv : ℕ → Bool) (len low high : ℕ) (w : WheelType) :
    (collectPrimes bv len low high w).Pairwise (· < ·) := by
  rw [collectPrimes, List.pairwise_filterMap]
  have hr : (List.range len).Pairwise (· < ·) := List.pairwise_lt_range len
  refine hr.imp ?_
  intro a b hab x hx y hy
  rw [Option.mem_def] at hx hy
  rw [collectOpt_eq hx, collectOpt_eq hy]
  exact index_to_n_strictMono low hab

theorem collectPrimes_mem_bounds {bv : ℕ → Bool} {len low high : ℕ} {w : WheelType}
    {c : ℕ} (hl : wheelCand w low) (hc : c ∈ collectPrimes bv len low high w) :
    low ≤ c ∧ c ≤ high := by
  obtain ⟨i, -, -, hn, hle⟩ := mem_collectPrimes.mp hc
  exact ⟨hn ▸ low_le_index_to_n hl i, hle⟩

theorem mem_collectPrimes_size {bv : ℕ → Bool} {low high : ℕ} {w : WheelType} {c : ℕ}
    (hl : wheelCand w low) :
    c ∈ collectPrimes bv (calculate_bitvec_size low high w) low high w ↔
      wheelCand w c ∧ low ≤ c ∧ c ≤ high ∧ bv (rankFrom w low c) = true := by
  rw [mem_collectPrimes]
  constructor
  · rintro ⟨i, hi, hb, rfl, hle⟩
    refine ⟨index_to_n_cand hl i, low_le_index_to_n hl i, hle, ?_⟩
    rw [rankFrom_index_to_n hl i]
    exact hb
  · rintro ⟨hc, hge, hle, hb⟩
    exact ⟨rankFrom w low c, rankFrom_lt_size hl hc hge hle, hb,
      index_to_n_rankFrom hl hc hge, hle⟩

theorem wheelExcluded_getLast (w : WheelType) :
    (wheelExcluded w).getLast? = some (lastExcluded w) := by
  cases w <;> rfl

theorem mem_wheelExcluded_le {w : WheelType} {q : ℕ} (h : q ∈ wheelExcluded w) :
    q ≤ lastExcluded w := by
  cases w <;> simp [wheelExcluded, lastExcluded] at * <;> omega

theorem mem_wheelExcluded_prime {w : WheelType} {q : ℕ} (h : q ∈ wheelExcluded w) :
    q.Prime := by
  cases w <;> simp only [wheelExcluded, List.mem_cons, List.mem_singleton,
    List.not_mem_nil, or_false] at h
  · rcases h with rfl
    exact Nat.prime_two
  · rcases h with rfl | rfl
    · exact Nat.prime_two
    · exact Nat.prime_three
  · rcases h with rfl | rfl | rfl
    · exact Nat.prime_two
    · exact Nat.prime_three
    · exact Nat.prime_five

theorem prime_le_lastExcluded_mem {w : WheelType} {p : ℕ} (hp : p.Prime)
    (hle : p ≤ lastExcluded w) : p ∈ wheelExcluded w := by
  have h2 := hp.two_le
  cases w <;> simp only [lastExcluded] at hle <;> simp only [wheelExcluded]
  · have : p = 2 := by omega
    simp [this]
  · have : p = 2 ∨ p = 3 := by omega
    rcases this with rfl | rfl <;> simp
  · have : p = 2 ∨ p = 3 ∨ p = 4 ∨ p = 5 := by omega
    rcases this with rfl | rfl | rfl | rfl
    · simp
    · simp
    · exact absurd hp (by decide)
    · simp

/-- Central segment-kernel correctness: with the cancellation flag never
set, a segment yields exactly the primes of `[low_inclusive, high]`,
provided the segment lies entirely above the wheel-excluded primes and the
small-primes list was built from a bound at least `√high`. -/
theorem sieve_segment_collect_false_mem {w : WheelType} {low_incl high root c : ℕ}
    (hlow : lastExcluded w < low_incl) (hroot : Nat.sqrt high ≤ root) :
    c ∈ sieve_segment_collect low_incl high (simple_sieve root) (fun _ => false) w ↔
      c.Prime ∧ low_incl ≤ c ∧ c ≤ high := by
  simp only [sieve_segment_collect]
  split_ifs with h1 h2
  · simp only [List.not_mem_nil, false_iff]
    rintro ⟨-, hge, hle⟩
    omega
  · simp only [List.not_mem_nil, false_iff]
    rintro ⟨hp, hge, hle⟩
    have hnex : c ∉ wheelExcluded w := by
      intro hmem
      have := mem_wheelExcluded_le hmem
      omega
    have hcand := cand_of_prime hp hnex
    have := adjust_low_le_of_cand hcand hge
    omega
  · obtain ⟨bv', t', hrun, hchar⟩ := sieveLoop_false_spec high (adjust_low low_incl w)
      (calculate_bitvec_size (adjust_low low_incl w) high w) w (simple_sieve root)
      (fun _ => true) 0
      (fun q hq => ((simple_sieve_mem root q).mp hq).1.two_le)
      (simple_sieve_pairwise root)
    rw [hrun]
    have hl : wheelCand w (adjust_low low_incl w) := adjust_low_cand low_incl w
    rw [mem_collectPrimes_size hl]
    set low := adjust_low low_incl w with hlowdef
    have hlow_ge : low_incl ≤ low := le_adjust_low low_incl w
    constructor
    · rintro ⟨hcand, hge, hle, hb⟩
      rw [hchar] at hb
      obtain ⟨-, hsurv⟩ := hb
      have hc3 : 2 ≤ c := by
        have h2l := hlow
        cases w <;> simp only [lastExcluded] at h2l <;> omega
      refine ⟨?_, by omega, hle⟩
      by_contra hnp
      have hq := Nat.minFac_prime (show c ≠ 1 by omega)
      have hqd := Nat.minFac_dvd c
      have hqsq : c.minFac * c.minFac ≤ c := by
        have := Nat.minFac_sq_le_self (show 0 < c by omega) hnp
        simpa [Nat.pow_two] using this
      have hqroot : c.minFac ≤ root := by
        have hx : c.minFac ≤ Nat.sqrt c := Nat.le_sqrt.mpr hqsq
        have hy : Nat.sqrt c ≤ Nat.sqrt high := Nat.sqrt_le_sqrt hle
        omega
      have hqsp : c.minFac ∈ simple_sieve root := (simple_sieve_mem root c.minFac).mpr
        ⟨hq, hqroot⟩
      have hqskip : wheelSkip w c.minFac = false := by
        rcases Bool.eq_false_or_eq_true (wheelSkip w c.minFac) with h | h
        · exact absurd hqd (cand_not_dvd hcand (wheelSkip_iff.mp h))
        · exact h
      refine hsurv ⟨c.minFac, hqsp, hqskip, by omega, c, hqd, hge, hqsq, hle, ?_,
        rankFrom_lt_size hl hcand hge hle⟩
      exact n_to_index_eq_some hl hcand hge
    · rintro ⟨hp, hge, hle⟩
      have hnex : c ∉ wheelExcluded w := by
        intro hmem
        have := mem_wheelExcluded_le hmem
        omega
      have hcand := cand_of_prime hp hnex
      have hgelow : low ≤ c := adjust_low_le_of_cand hcand hge
      refine ⟨hcand, hgelow, hle, ?_⟩
      rw [hchar]
      refine ⟨rfl, ?_⟩
      rintro ⟨q, hqsp, -, -, m, hqm, hgem, hsqm, hlem, hsome, -⟩
      have hmeq : m = c := by
        have := index_to_n_inj_of_some hsome
        rw [index_to_n_rankFrom hl hcand hgelow] at this
        omega
      subst hmeq
      have hqprime := ((simple_sieve_mem root q).mp hqsp).1
      rcases (Nat.Prime.eq_one_or_self_of_dvd hp q hqm) with hq1 | hqc
    -- q = 1 contradicts q prime; q = c contradicts q * q ≤ c
      · exact hqprime.one_lt.ne' hq1
      · subst hqc
        nlinarith [hp.two_le]

/-- For any cancellation behaviour, a segment's output is strictly
increasing. -/
theorem sieve_segment_collect_pairwise (l h : ℕ) (sp : List ℕ) (stop : ℕ → Bool)
    (w : WheelType) : (sieve_segment_collect l h sp stop w).Pairwise (· < ·) := by
  simp only [sieve_segment_collect]
  split_ifs
  · exact List.Pairwise.nil
  · exact List.Pairwise.nil
  · rcases hx : sieveLoop h (adjust_low l w) (calculate_bitvec_size (adjust_low l w) h w)
      w stop sp (fun _ => true) 0 with - | ⟨bv, t⟩
    · exact List.Pairwise.nil
    · exact collectPrimes_pairwise bv _ _ h w

/-- For any cancellation behaviour, every value a segment outputs lies in
`[low_inclusive, high_inclusive]`. -/
theorem sieve_segment_collect_bounds {l h : ℕ} {sp : List ℕ} {stop : ℕ → Bool}
    {w : WheelType} {c : ℕ} (hc : c ∈ sieve_segment_collect l h sp stop w) :
    l ≤ c ∧ c ≤ h := by
  simp only [sieve_segment_collect] at hc
  split_ifs at hc
  · cases hc
  · cases hc
  · rcases hx : sieveLoop h (adjust_low l w) (calculate_bitvec_size (adjust_low l w) h w)
      w stop sp (fun _ => true) 0 with - | ⟨bv, t⟩
    · rw [hx] at hc
      exact absurd hc (List.not_mem_nil c)
    · rw [hx] at hc
      have h1 : c ∈ collectPrimes bv (calculate_bitvec_size (adjust_low l w) h w)
          (adjust_low l w) h w := hc
      have := collectPrimes_mem_bounds (adjust_low_cand l w) h1
      have := le_adjust_low l w
      omega

/-- Structural properties of one group's segment bounds (`mkBounds`). -/
theorem mkBounds_spec (pm ss : ℕ) : ∀ k s, s ≤ pm + 1 →
    (∀ b ∈ (mkBounds pm ss k s).1, s ≤ b.1 ∧ b.1 ≤ b.2 ∧ b.2 ≤ pm ∧
      b.2 < (mkBounds pm ss k s).2) ∧
    ((mkBounds pm ss k s).1).Pairwise (fun a b => a.2 < b.1) ∧
    s ≤ (mkBounds pm ss k s).2 ∧
    ((mkBounds pm ss k s).1 ≠ [] → s < (mkBounds pm ss k s).2) ∧
    (mkBounds pm ss k s).2 ≤ pm + 1 ∧
    (∀ m, (∃ b ∈ (mkBounds pm ss k s).1, b.1 ≤ m ∧ m ≤ b.2) ↔
      (s ≤ m ∧ m < (mkBounds pm ss k s).2)) ∧
    ((mkBounds pm ss k s).1.map (fun b => b.2 - b.1 + 1)).sum
      = (mkBounds pm ss k s).2 - s ∧
    (1 ≤ k → s ≤ pm → (mkBounds pm ss k s).1 ≠ []) := by
  intro k
  induction k with
  | zero =>
    intro s hs
    simp only [mkBounds]
    refine ⟨by simp, List.Pairwise.nil, le_refl s, by simp, hs, ?_, by simp, by omega⟩
    intro m
    simp only [List.not_mem_nil, false_and, exists_false, false_iff]
    omega
  | succ k ih =>
    intro s hs
    simp only [mkBounds]
    split_ifs with hgt
    · refine ⟨by simp, List.Pairwise.nil, le_refl s, by simp, hs, ?_, by simp, by omega⟩
      intro m
      simp only [List.not_mem_nil, false_and, exists_false, false_iff]
      omega
    · push_neg at hgt
      set e := min (s + (ss - 1)) pm with he
      have hse : s ≤ e := by omega
      have hepm : e ≤ pm := by omega
      obtain ⟨ihA, ihB, ihC, ihD, ihE, ihF, ihG, ihH⟩ := ih (e + 1) (by omega)
      refine ⟨?_, ?_, by omega, fun _ => by omega, ihE, ?_, ?_, fun _ _ => by simp⟩
      · intro b hb
        rcases List.mem_cons.mp hb with rfl | hb
        · exact ⟨le_refl s, hse, hepm, by omega⟩
        · obtain ⟨h1, h2, h3, h4⟩ := ihA b hb
          exact ⟨by omega, h2, h3, h4⟩
      · refine List.Pairwise.cons ?_ ihB
        intro b hb
        have := (ihA b hb).1
        omega
      · intro m
        simp only [List.mem_cons]
        constructor
        · rintro ⟨b, rfl | hb, hm1, hm2⟩
          · exact ⟨by omega, by omega⟩
          · have := (ihF m).mp ⟨b, hb, hm1, hm2⟩
            omega
        · rintro ⟨hm1, hm2⟩
          rcases Nat.lt_or_ge m (e + 1) with hme | hme
          · exact ⟨(s, e), Or.inl rfl, by omega, by omega⟩
          · obtain ⟨b, hb, hb1, hb2⟩ := (ihF m).mpr ⟨by omega, hm2⟩
            exact ⟨b, Or.inr hb, hb1, hb2⟩
      · simp only [List.map_cons, List.sum_cons, ihG]
        omega

theorem runWorker_low (sp : List ℕ) (w : WheelType) (stopW : ℕ → ℕ → Bool) (b : ℕ × ℕ) :
    (runWorker sp w stopW b).low = b.1 ∧ (runWorker sp w stopW b).high = b.2 := by
  rw [runWorker]
  split_ifs <;> exact ⟨rfl, rfl⟩

theorem runWorker_primes_pairwise (sp : List ℕ) (w : WheelType) (stopW : ℕ → ℕ → Bool)
    (b : ℕ × ℕ) : (runWorker sp w stopW b).primes.Pairwise (· < ·) := by
  rw [runWorker]
  split_ifs
  · exact List.Pairwise.nil
  · exact sieve_segment_collect_pairwise b.1 b.2 sp _ w

theorem runWorker_primes_bounds {sp : List ℕ} {w : WheelType} {stopW : ℕ → ℕ → Bool}
    {b : ℕ × ℕ} {c : ℕ} (hc : c ∈ (runWorker sp w stopW b).primes) :
    b.1 ≤ c ∧ c ≤ b.2 := by
  rw [runWorker] at hc
  split_ifs at hc
  · cases hc
  · exact sieve_segment_collect_bounds hc

theorem runWorker_false (sp : List ℕ) (w : WheelType) (b : ℕ × ℕ) :
    runWorker sp w (fun _ _ => false) b =
      ⟨b.1, b.2, sieve_segment_collect b.1 b.2 sp (fun _ => false) w⟩ := rfl

theorem sortByLow_sorted : ∀ {l : List SegmentResult},
    l.Pairwise (fun a b => a.low < b.low) → sortByLow l = l := by
  intro l
  induction l with
  | nil => intro h; rfl
  | cons x xs ih =>
    intro h
    rw [sortByLow, ih (List.Pairwise.of_cons h)]
    cases xs with
    | nil => rfl
    | cons y ys =>
      rw [insertByLow,
        if_pos (le_of_lt (List.rel_of_pairwise_cons h (List.mem_cons_self y ys)))]

theorem writeResults_false : ∀ (rs : List SegmentResult) (processed t : ℕ),
    (writeResults (fun _ => false) rs processed t).1 = (rs.map (·.primes)).flatten ∧
    (writeResults (fun _ => false) rs processed t).2.1 =
      processed + (rs.map (fun r => r.high - r.low + 1)).sum ∧
    (writeResults (fun _ => false) rs processed t).2.2.2 = false := by
  intro rs
  induction rs with
  | nil =>
    intro processed t
    exact ⟨rfl, by simp [writeResults], rfl⟩
  | cons r rest ih =>
    intro processed t
    obtain ⟨ih1, ih2, ih3⟩ := ih (processed + (r.high - r.low + 1)) (t + 1)
    rw [writeResults]
    rw [if_neg (by simp)]
    refine ⟨?_, ?_, ih3⟩
    · simp only [List.map_cons, List.flatten_cons, ih1]
    · simp only [List.map_cons, List.sum_cons, ih2]
      omega

theorem writeResults_pairwise {stopO : ℕ → Bool} : ∀ (rs : List SegmentResult)
    (processed t : ℕ),
    (∀ r ∈ rs, r.primes.Pairwise (· < ·) ∧ ∀ c ∈ r.primes, r.low ≤ c ∧ c ≤ r.high) →
    rs.Pairwise (fun a b => a.high < b.low) →
    ((writeResults stopO rs processed t).1.Pairwise (· < ·) ∧
      ∀ c ∈ (writeResults stopO rs processed t).1, ∃ r ∈ rs, r.low ≤ c ∧ c ≤ r.high) := by
  intro rs
  induction rs with
  | nil =>
    intro processed t h1 h2
    exact ⟨List.Pairwise.nil, by simp [writeResults]⟩
  | cons r rest ih =>
    intro processed t h1 h2
    rw [writeResults]
    split_ifs with hstop
    · exact ⟨List.Pairwise.nil, by simp⟩
    · obtain ⟨ihp, ihm⟩ := ih (processed + (r.high - r.low + 1)) (t + 1)
        (fun q hq => h1 q (List.mem_cons_of_mem r hq)) (List.Pairwise.of_cons h2)
      constructor
      · rw [List.pairwise_append]
        refine ⟨(h1 r (List.mem_cons_self r rest)).1, ihp, ?_⟩
        intro a ha b hb
        obtain ⟨ra, hra, hra1, hra2⟩ := ihm b hb
        have h3 := (h1 r (List.mem_cons_self r rest)).2 a ha
        have h4 := List.rel_of_pairwise_cons h2 hra
        omega
      · intro c hc
        rcases List.mem_append.mp hc with hca | hcb
        · exact ⟨r, List.mem_cons_self r rest,
            (h1 r (List.mem_cons_self r rest)).2 c hca⟩
        · obtain ⟨ra, hra, hb⟩ := ihm c hcb
          exact ⟨ra, List.mem_cons_of_mem r hra, hb⟩

theorem groupLoop_finishes (pmin pm ss gs tr : ℕ) (sp : List ℕ) (w : WheelType)
    (stopO : ℕ → Bool) (stopW : ℕ → ℕ → Bool) (el : ℕ → ℚ) :
    ∀ fuel segStart processed gIdx t, pm + 2 - segStart ≤ fuel → segStart ≤ pm + 1 →
    (groupLoop pmin pm ss gs tr sp w stopO stopW el fuel segStart processed gIdx t).2.2
      = 1 := by
  intro fuel
  induction fuel with
  | zero =>
    intro s p g t hf hs
    omega
  | succ fuel ih =>
    intro s p g t hf hs
    simp only [groupLoop]
    split_ifs with h1 h2 h3 h4
    · rfl
    · rfl
    · rfl
    · have hB := mkBounds_spec pm ss gs s hs
      apply ih
      · have := hB.2.2.2.1 h3
        omega
      · exact hB.2.2.2.2.1
    · rfl

theorem results_facts (sp : List ℕ) (w : WheelType) (stopW : ℕ → ℕ → Bool)
    {pm ss gs s : ℕ} (hs : s ≤ pm + 1) :
    sortByLow ((mkBounds pm ss gs s).1.map (runWorker sp w stopW))
        = (mkBounds pm ss gs s).1.map (runWorker sp w stopW) ∧
    ((mkBounds pm ss gs s).1.map (runWorker sp w stopW)).Pairwise
      (fun a b => a.high < b.low) ∧
    ∀ r ∈ (mkBounds pm ss gs s).1.map (runWorker sp w stopW),
      r.primes.Pairwise (· < ·) ∧ (∀ c ∈ r.primes, r.low ≤ c ∧ c ≤ r.high) ∧
      s ≤ r.low ∧ r.high ≤ pm ∧ r.high < (mkBounds pm ss gs s).2 := by
  obtain ⟨hA, hB, -, -, -, -, -, -⟩ := mkBounds_spec pm ss gs s hs
  have hpair : ((mkBounds pm ss gs s).1.map (runWorker sp w stopW)).Pairwise
      (fun a b => a.high < b.low) := by
    rw [List.pairwise_map]
    refine hB.imp ?_
    intro a b hab
    rw [(runWorker_low sp w stopW a).2, (runWorker_low sp w stopW b).1]
    exact hab
  refine ⟨?_, hpair, ?_⟩
  · apply sortByLow_sorted
    rw [List.pairwise_map]
    refine List.Pairwise.imp_of_mem ?_ hB
    intro a b ha hb hab
    rw [(runWorker_low sp w stopW a).1, (runWorker_low sp w stopW b).1]
    have := (hA a ha).2.1
    omega
  · intro r hr
    obtain ⟨b, hb, rfl⟩ := List.mem_map.mp hr
    obtain ⟨h1, h2, h3, h4⟩ := hA b hb
    refine ⟨runWorker_primes_pairwise sp w stopW b, ?_, ?_, ?_, ?_⟩
    · intro c hc
      have := runWorker_primes_bounds hc
      rw [(runWorker_low sp w stopW b).1, (runWorker_low sp w stopW b).2]
      omega
    · rw [(runWorker_low sp w stopW b).1]
      exact h1
    · rw [(runWorker_low sp w stopW b).2]
      exact h3
    · rw [(runWorker_low sp w stopW b).2]
      exact h4

theorem groupLoop_writes (pmin pm ss gs tr : ℕ) (sp : List ℕ) (w : WheelType)
    (stopO : ℕ → Bool) (stopW : ℕ → ℕ → Bool) (el : ℕ → ℚ) :
    ∀ fuel segStart processed gIdx t, segStart ≤ pm + 1 →
    ((groupLoop pmin pm ss gs tr sp w stopO stopW el fuel segStart processed gIdx
        t).1.Pairwise (· < ·) ∧
      ∀ c ∈ (groupLoop pmin pm ss gs tr sp w stopO stopW el fuel segStart processed
        gIdx t).1, segStart ≤ c ∧ c ≤ pm) := by
  intro fuel
  induction fuel with
  | zero =>
    intro s p g t hs
    rw [groupLoop]
    exact ⟨List.Pairwise.nil, by simp⟩
  | succ fuel ih =>
    intro s p g t hs
    obtain ⟨hsort, hrpair, hrfacts⟩ :=
      @results_facts sp w stopW pm ss gs s hs
    obtain ⟨hA, hB, hC, hD, hE, hF, hG, hH⟩ := mkBounds_spec pm ss gs s hs
    simp only [groupLoop]
    split_ifs with h1 h2 h3 h4
    · exact ⟨List.Pairwise.nil, by simp⟩
    · exact ⟨List.Pairwise.nil, by simp⟩
    · rw [hsort]
      obtain ⟨hwp, hwm⟩ := writeResults_pairwise _ p (t + 1)
        (fun r hr => ⟨(hrfacts r hr).1, (hrfacts r hr).2.1⟩) hrpair
      refine ⟨hwp, ?_⟩
      intro c hc
      obtain ⟨r, hr, hcl, hch⟩ := hwm c hc
      obtain ⟨-, -, hrl, hrh, -⟩ := hrfacts r hr
      omega
    · rw [hsort]
      obtain ⟨hwp, hwm⟩ := writeResults_pairwise _ p (t + 1)
        (fun r hr => ⟨(hrfacts r hr).1, (hrfacts r hr).2.1⟩) hrpair
      obtain ⟨ihp, ihm⟩ := ih (mkBounds pm ss gs s).2 _ (g + 1) _ hE
      constructor
      · rw [List.pairwise_append]
        refine ⟨hwp, ihp, ?_⟩
        intro a ha b hb
        obtain ⟨r, hr, hal, hah⟩ := hwm a ha
        obtain ⟨-, -, -, -, hrlt⟩ := hrfacts r hr
        have := (ihm b hb).1
        omega
      · intro c hc
        rcases List.mem_append.mp hc with hca | hcb
        · obtain ⟨r, hr, hcl, hch⟩ := hwm c hca
          obtain ⟨-, -, hrl, hrh, -⟩ := hrfacts r hr
          omega
        · have := ihm c hcb
          omega
    · exact ⟨List.Pairwise.nil, by simp⟩

theorem groupLoop_false_spec (pmin pm ss gs root : ℕ) (w : WheelType) (el : ℕ → ℚ)
    (hgs : 1 ≤ gs) (hroot : Nat.sqrt pm ≤ root) :
    ∀ fuel segStart gIdx t, pm + 2 - segStart ≤ fuel → segStart ≤ pm + 1 →
    lastExcluded w < segStart → pmin ≤ segStart →
    (∀ c, c ∈ (groupLoop pmin pm ss gs (pm - pmin + 1) (simple_sieve root) w
        (fun _ => false) (fun _ _ => false) el fuel segStart (segStart - pmin) gIdx
        t).1 ↔ c.Prime ∧ segStart ≤ c ∧ c ≤ pm) ∧
    (∀ pr ∈ (groupLoop pmin pm ss gs (pm - pmin + 1) (simple_sieve root) w
        (fun _ => false) (fun _ _ => false) el fuel segStart (segStart - pmin) gIdx
        t).2.1, pr.total = pm - pmin + 1 ∧ pr.processed ≤ pm - pmin + 1 ∧
        segStart - pmin ≤ pr.processed) ∧
    ((groupLoop pmin pm ss gs (pm - pmin + 1) (simple_sieve root) w
        (fun _ => false) (fun _ _ => false) el fuel segStart (segStart - pmin) gIdx
        t).2.1.Pairwise (fun a b => a.processed ≤ b.processed)) ∧
    (segStart ≤ pm → (groupLoop pmin pm ss gs (pm - pmin + 1) (simple_sieve root) w
        (fun _ => false) (fun _ _ => false) el fuel segStart (segStart - pmin) gIdx
        t).2.1 ≠ []) ∧
    (∀ l, (groupLoop pmin pm ss gs (pm - pmin + 1) (simple_sieve root) w
        (fun _ => false) (fun _ _ => false) el fuel segStart (segStart - pmin) gIdx
        t).2.1.getLast? = some l → l.processed = pm - pmin + 1) := by
  intro fuel
  induction fuel with
  | zero =>
    intro s g t hf hs hex hmin
    exfalso
    omega
  | succ fuel ih =>
    intro s g t hf hs hex hmin
    obtain ⟨hsort, hrpair, hrfacts⟩ :=
      @results_facts (simple_sieve root) w (fun _ _ => false) pm ss gs s hs
    obtain ⟨hA, hB, hC, hD, hE, hF, hG, hH⟩ := mkBounds_spec pm ss gs s hs
    simp only [groupLoop]
    split_ifs with h1 h2 h3 h4
    · simp at h2
    · exact absurd h3 (hH hgs h1)
    · rw [hsort] at h4
      have hab := (writeResults_false ((mkBounds pm ss gs s).1.map
        (runWorker (simple_sieve root) w (fun _ _ => false))) (s - pmin) (t + 1)).2.2
      rw [hab] at h4
      cases h4
    · rw [hsort]
      obtain ⟨hw1, hw2, -⟩ := writeResults_false ((mkBounds pm ss gs s).1.map
        (runWorker (simple_sieve root) w (fun _ _ => false))) (s - pmin) (t + 1)
      have hne : (mkBounds pm ss gs s).1 ≠ [] := hH hgs h1
      have hslt : s < (mkBounds pm ss gs s).2 := hD hne
      have hwidth : (((mkBounds pm ss gs s).1.map
          (runWorker (simple_sieve root) w (fun _ _ => false))).map
          (fun r => r.high - r.low + 1)).sum = (mkBounds pm ss gs s).2 - s := by
        rw [List.map_map]
        have : ((fun r : SegmentResult => r.high - r.low + 1) ∘
            runWorker (simple_sieve root) w (fun _ _ => false)) =
            fun b : ℕ × ℕ => b.2 - b.1 + 1 := by
          funext b
          simp only [Function.comp_apply]
          rw [(runWorker_low _ _ _ b).1, (runWorker_low _ _ _ b).2]
        rw [this, hG]
      have hproc : (writeResults (fun _ => false) ((mkBounds pm ss gs s).1.map
          (runWorker (simple_sieve root) w (fun _ _ => false))) (s - pmin)
          (t + 1)).2.1 = (mkBounds pm ss gs s).2 - pmin := by
        rw [hw2, hwidth]
        omega
      rw [hproc, hw1]
      obtain ⟨ih1, ih2, ih3, ih4, ih5⟩ := ih (mkBounds pm ss gs s).2 (g + 1)
        (writeResults (fun _ => false) ((mkBounds pm ss gs s).1.map
          (runWorker (simple_sieve root) w (fun _ _ => false))) (s - pmin)
          (t + 1)).2.2.1
        (by omega) hE (by omega) (by omega)
      have hmemgrp : ∀ c, (c ∈ (((mkBounds pm ss gs s).1.map
          (runWorker (simple_sieve root) w (fun _ _ => false))).map
          (fun r => r.primes)).flatten ↔
          c.Prime ∧ s ≤ c ∧ c < (mkBounds pm ss gs s).2) := by
        intro c
        rw [List.mem_flatten]
        constructor
        · rintro ⟨l, hl, hcl⟩
          obtain ⟨r, hr, rfl⟩ := List.mem_map.mp hl
          obtain ⟨b, hb, rfl⟩ := List.mem_map.mp hr
          rw [runWorker_false] at hcl
          obtain ⟨h1b, h2b, h3b, -⟩ := hA b hb
          have hcx := (sieve_segment_collect_false_mem (w := w)
            (show lastExcluded w < b.1 by omega)
            (show Nat.sqrt b.2 ≤ root by
              have := Nat.sqrt_le_sqrt h3b
              omega)).mp hcl
          have hcov := (hF c).mp ⟨b, hb, by omega, by omega⟩
          exact ⟨hcx.1, by omega, by omega⟩
        · rintro ⟨hp, hge, hlt⟩
          obtain ⟨b, hb, hb1, hb2⟩ := (hF c).mpr ⟨hge, hlt⟩
          refine ⟨(runWorker (simple_sieve root) w (fun _ _ => false) b).primes,
            List.mem_map.mpr ⟨runWorker (simple_sieve root) w (fun _ _ => false) b,
              List.mem_map.mpr ⟨b, hb, rfl⟩, rfl⟩, ?_⟩
          rw [runWorker_false]
          obtain ⟨h1b, h2b, h3b, -⟩ := hA b hb
          exact (sieve_segment_collect_false_mem (w := w)
            (show lastExcluded w < b.1 by omega)
            (show Nat.sqrt b.2 ≤ root by
              have := Nat.sqrt_le_sqrt h3b
              omega)).mpr ⟨hp, hb1, hb2⟩
      have hminp : min ((mkBounds pm ss gs s).2 - pmin) (pm - pmin + 1)
          = (mkBounds pm ss gs s).2 - pmin := by omega
      refine ⟨?_, ?_, ?_, fun _ => by simp, ?_⟩
      · intro c
        rw [List.mem_append, hmemgrp c, ih1 c]
        constructor
        · rintro (⟨hp, hge, hlt⟩ | ⟨hp, hge, hle⟩)
          · exact ⟨hp, hge, by omega⟩
          · exact ⟨hp, by omega, hle⟩
        · rintro ⟨hp, hge, hle⟩
          rcases Nat.lt_or_ge c (mkBounds pm ss gs s).2 with hc | hc
          · exact Or.inl ⟨hp, hge, hc⟩
          · exact Or.inr ⟨hp, by omega, hle⟩
      · intro pr hpr
        rcases List.mem_cons.mp hpr with rfl | hpr'
        · refine ⟨rfl, ?_, ?_⟩ <;> simp only [hminp] <;> omega
        · have := ih2 pr hpr'
          omega
      · refine List.Pairwise.cons ?_ ih3
        intro pr hpr
        have := (ih2 pr hpr).2.2
        simp only [hminp]
        omega
      · intro l hl
        rcases hrest : (groupLoop pmin pm ss gs (pm - pmin + 1) (simple_sieve root) w
            (fun _ => false) (fun _ _ => false) el fuel (mkBounds pm ss gs s).2
            ((mkBounds pm ss gs s).2 - pmin) (g + 1)
            (writeResults (fun _ => false) ((mkBounds pm ss gs s).1.map
              (runWorker (simple_sieve root) w (fun _ _ => false))) (s - pmin)
              (t + 1)).2.2.1).2.1 with - | ⟨pr2, rest2⟩
        · rw [hrest] at hl
          simp only [List.getLast?_singleton] at hl
          injection hl with hl2
          rw [← hl2]
          simp only [hminp]
          have hs'pm : ¬ (mkBounds pm ss gs s).2 ≤ pm := by
            intro hcon
            exact (ih4 hcon) hrest
          omega
        · rw [hrest] at hl
          rw [List.getLast?_cons_cons] at hl
          apply ih5
          rw [hrest]
          exact hl
    · push_neg at h1
      refine ⟨?_, by simp, List.Pairwise.nil, by omega, by simp⟩
      intro c
      simp only [List.not_mem_nil, false_iff]
      rintro ⟨-, hge, hle⟩
      omega

theorem sieve_start_eq (w : WheelType) (pmin : ℕ) :
    (((wheelExcluded w).getLast?.map (· + 1)).getD pmin) = lastExcluded w + 1 := by
  cases w <;> rfl

theorem wheelExcluded_pairwise (w : WheelType) : (wheelExcluded w).Pairwise (· < ·) := by
  cases w <;> simp [wheelExcluded]

theorem mem_filter_excluded {w : WheelType} {pmin pmax q : ℕ} :
    q ∈ (wheelExcluded w).filter (fun p => decide (pmin ≤ p) && decide (p ≤ pmax)) ↔
      q ∈ wheelExcluded w ∧ pmin ≤ q ∧ q ≤ pmax := by
  rw [List.mem_filter]
  simp

/-- C2: in every run (any range, any wheel, any segment/group sizing, any
cancellation behaviour of the orchestrator and of the workers), the
sequence of values passed to `write_prime` is strictly increasing. -/
theorem claim_c2_writes_strictly_increasing (cfg : SieveConfig) (ss gs : ℕ)
    (stopO : ℕ → Bool) (stopW : ℕ → ℕ → Bool) (el : ℕ → ℚ) :
    (generate_primes_cpu cfg ss gs stopO stopW el).writes.Pairwise (· < ·) := by
  simp only [generate_primes_cpu]
  split_ifs with h1 h2 h3 h4
  · exact List.Pairwise.nil
  · exact List.Pairwise.nil
  · exact List.Pairwise.filter _ (wheelExcluded_pairwise cfg.wheel_type)
  · exact List.Pairwise.filter _ (wheelExcluded_pairwise cfg.wheel_type)
  · rw [List.pairwise_append]
    push_neg at h4
    refine ⟨List.Pairwise.filter _ (wheelExcluded_pairwise cfg.wheel_type),
      (groupLoop_writes _ _ _ _ _ _ _ _ _ _ _ _ _ _ _ (by omega)).1, ?_⟩
    intro a ha b hb
    have hamem := mem_filter_excluded.mp ha
    have hale := mem_wheelExcluded_le hamem.1
    have hbge := ((groupLoop_writes _ _ _ _ _ _ _ _ _ _ _ _ _ _ _
      (by omega : max (((wheelExcluded cfg.wheel_type).getLast?.map (· + 1)).getD
        cfg.prime_min) cfg.prime_min ≤ cfg.prime_max + 1)).2 b hb).1
    rw [sieve_start_eq] at hbge
    rw [sieve_start_eq] at h3
    omega

/-- C9: in every run, every value passed to `write_prime` lies in the
requested inclusive range `[prime_min, prime_max]`. -/
theorem claim_c9_writes_in_range (cfg : SieveConfig) (ss gs : ℕ)
    (stopO : ℕ → Bool) (stopW : ℕ → ℕ → Bool) (el : ℕ → ℚ) :
    ∀ c ∈ (generate_primes_cpu cfg ss gs stopO stopW el).writes,
      cfg.prime_min ≤ c ∧ c ≤ cfg.prime_max := by
  simp only [generate_primes_cpu]
  split_ifs with h1 h2 h3 h4
  · simp
  · simp
  · intro c hc
    exact (mem_filter_excluded.mp hc).2
  · intro c hc
    exact (mem_filter_excluded.mp hc).2
  · intro c hc
    push_neg at h4
    rcases List.mem_append.mp hc with hca | hcb
    · exact (mem_filter_excluded.mp hca).2
    · have := (groupLoop_writes _ _ _ _ _ _ _ _ _ _ _ _ _ _ _
        (by omega : max (((wheelExcluded cfg.wheel_type).getLast?.map (· + 1)).getD
          cfg.prime_min) cfg.prime_min ≤ cfg.prime_max + 1)).2 c hcb
      omega

theorem claim_c9_writes_in_range_witness : 10 ≤ 11 ∧ 11 ≤ 50 :=
  claim_c9_writes_in_range ⟨10, 50, .Mod6⟩ 7 2 (fun _ => false) (fun _ _ => false)
    (fun _ => 0) 11 (by decide)

/-- C5: a request with `prime_min > prime_max` returns an error immediately
with no partial work: no `write_prime`, no `finish`, no progress callback. -/
theorem claim_c5_invalid_range (cfg : SieveConfig) (ss gs : ℕ)
    (stopO : ℕ → Bool) (stopW : ℕ → ℕ → Bool) (el : ℕ → ℚ)
    (h : cfg.prime_max < cfg.prime_min) :
    (generate_primes_cpu cfg ss gs stopO stopW el).ok = false ∧
    (generate_primes_cpu cfg ss gs stopO stopW el).writes = [] ∧
    (generate_primes_cpu cfg ss gs stopO stopW el).finishes = 0 ∧
    (generate_primes_cpu cfg ss gs stopO stopW el).progresses = [] := by
  simp only [generate_primes_cpu]
  rw [if_pos (by omega : cfg.prime_min > cfg.prime_max)]
  exact ⟨rfl, rfl, rfl, rfl⟩

theorem claim_c5_invalid_range_witness :
    (generate_primes_cpu ⟨5, 4, .Odd⟩ 7 2 (fun _ => false) (fun _ _ => false)
      (fun _ => 0)).ok = false ∧
    (generate_primes_cpu ⟨5, 4, .Odd⟩ 7 2 (fun _ => false) (fun _ _ => false)
      (fun _ => 0)).writes = [] ∧
    (generate_primes_cpu ⟨5, 4, .Odd⟩ 7 2 (fun _ => false) (fun _ _ => false)
      (fun _ => 0)).finishes = 0 ∧
    (generate_primes_cpu ⟨5, 4, .Odd⟩ 7 2 (fun _ => false) (fun _ _ => false)
      (fun _ => 0)).progresses = [] :=
  claim_c5_invalid_range ⟨5, 4, .Odd⟩ 7 2 (fun _ => false) (fun _ _ => false)
    (fun _ => 0) (by decide)

/-- C3 (counterexample): if the cancellation flag is already set at the
first checkpoint (cpu_engine.rs:39), the run returns `Ok` without calling
`writer.finish()` — so `finish` is not called exactly once on every
no-error cancelled run. -/
theorem claim_c3_counterexample :
    (generate_primes_cpu ⟨1, 10, .Odd⟩ 5 2 (fun _ => true) (fun _ _ => false)
      (fun _ => 0)).finishes = 0 ∧
    (generate_primes_cpu ⟨1, 10, .Odd⟩ 5 2 (fun _ => true) (fun _ _ => false)
      (fun _ => 0)).ok = true := ⟨rfl, rfl⟩

/-- C3 (amended): in every run with `prime_min ≤ prime_max` in which the
writer never fails and the flag is not yet set at the initial checkpoint,
`writer.finish()` is called exactly once before returning — both on full
completion and on cancellation at any later checkpoint. -/
theorem claim_c3_finish_once (cfg : SieveConfig) (ss gs : ℕ)
    (stopO : ℕ → Bool) (stopW : ℕ → ℕ → Bool) (el : ℕ → ℚ)
    (hminmax : cfg.prime_min ≤ cfg.prime_max) (hfirst : stopO 0 = false) :
    (generate_primes_cpu cfg ss gs stopO stopW el).finishes = 1 := by
  simp only [generate_primes_cpu]
  split_ifs with h1 h2 h3 h4
  · omega
  · rw [hfirst] at h2
    cases h2
  · rfl
  · rfl
  · push_neg at h4
    exact groupLoop_finishes _ _ _ _ _ _ _ _ _ _ _ _ _ _ _ (by omega) (by omega)

theorem claim_c3_finish_once_witness :
    (generate_primes_cpu ⟨1, 10, .Odd⟩ 5 2 (fun t => decide (1 ≤ t))
      (fun _ _ => false) (fun _ => 0)).finishes = 1 :=
  claim_c3_finish_once ⟨1, 10, .Odd⟩ 5 2 (fun t => decide (1 ≤ t))
    (fun _ _ => false) (fun _ => 0) (by decide) (by decide)

theorem getLast_mem_of_some {α : Type} : ∀ {l : List α} {a : α},
    l.getLast? = some a → a ∈ l := by
  intro l
  induction l with
  | nil =>
    intro a h
    cases h
  | cons x xs ih =>
    intro a h
    cases xs with
    | nil =>
      rw [List.getLast?_singleton] at h
      injection h with h2
      rw [← h2]
      exact List.mem_cons_self x []
    | cons y ys =>
      rw [List.getLast?_cons_cons] at h
      exact List.mem_cons_of_mem x (ih h)

/-- C4: in every uncancelled run with a valid range, each delivered
`Progress` has `total = prime_max - prime_min + 1` and
`processed ≤ total`, `processed` never decreases from one callback to the
next, the callback fires at least once, and the final callback reports
`processed = total`. -/
theorem claim_c4_progress_invariants (cfg : SieveConfig) (ss gs : ℕ) (el : ℕ → ℚ)
    (hgs : 1 ≤ gs) (hminmax : cfg.prime_min ≤ cfg.prime_max) :
    (∀ pr ∈ (generate_primes_cpu cfg ss gs (fun _ => false) (fun _ _ => false)
        el).progresses,
      pr.total = cfg.prime_max - cfg.prime_min + 1 ∧ pr.processed ≤ pr.total) ∧
    (generate_primes_cpu cfg ss gs (fun _ => false) (fun _ _ => false)
        el).progresses.Pairwise (fun a b => a.processed ≤ b.processed) ∧
    (generate_primes_cpu cfg ss gs (fun _ => false) (fun _ _ => false)
        el).progresses ≠ [] ∧
    ∀ l, (generate_primes_cpu cfg ss gs (fun _ => false) (fun _ _ => false)
        el).progresses.getLast? = some l → l.processed = l.total := by
  simp only [generate_primes_cpu]
  split_ifs with h1 h2 h3 h4
  · omega
  · simp at h2
  · refine ⟨?_, List.pairwise_singleton _ _, by simp, ?_⟩
    · intro pr hpr
      rcases List.mem_singleton.mp hpr with rfl
      exact ⟨rfl, le_refl _⟩
    · intro l hl
      rw [List.getLast?_singleton] at hl
      injection hl with hl2
      rw [← hl2]
  · exfalso
    rw [sieve_start_eq] at h3 h4
    push_neg at h3
    omega
  · push_neg at h3 h4
    rw [sieve_start_eq] at h3 h4 ⊢
    have hroot2 : Nat.sqrt cfg.prime_max ≤ integer_sqrt cfg.prime_max + 1 := by
      rw [integer_sqrt_eq_sqrt]
      omega
    obtain ⟨g1, g2, g3, g4, g5⟩ := groupLoop_false_spec cfg.prime_min cfg.prime_max ss
      gs (integer_sqrt cfg.prime_max + 1) cfg.wheel_type el hgs hroot2
      (cfg.prime_max + 2) (max (lastExcluded cfg.wheel_type + 1) cfg.prime_min) 0 1
      (by omega) (by omega) (by omega) (by omega)
    refine ⟨?_, g3, g4 (by omega), ?_⟩
    · intro pr hpr
      have h := g2 pr hpr
      refine ⟨h.1, ?_⟩
      rw [h.1]
      exact h.2.1
    · intro l hl
      have h5 := g5 l hl
      have hmem := getLast_mem_of_some hl
      have h := g2 l hmem
      rw [h.1]
      exact h5

theorem claim_c4_progress_invariants_witness :
    (generate_primes_cpu ⟨1, 30, .Mod30⟩ 7 2 (fun _ => false) (fun _ _ => false)
        (fun _ => 0)).progresses ≠ [] :=
  (claim_c4_progress_invariants ⟨1, 30, .Mod30⟩ 7 2 (fun _ => 0) (by decide)
    (by decide)).2.2.1

/-- C1: for every `N` and every wheel type, an uncancelled run over
`[1, N]` writes exactly the primes of `[1, N]` — the same set as the plain
(non-segmented, non-wheeled) sieve of Eratosthenes `simple_sieve` over that
range — independently of the wheel choice and of the (positive) group and
segment sizing. -/
theorem claim_c1_engine_matches_plain_sieve (N : ℕ) (w : WheelType) (ss gs : ℕ)
    (hgs : 1 ≤ gs) (el : ℕ → ℚ) :
    ∀ c, c ∈ (generate_primes_cpu ⟨1, N, w⟩ ss gs (fun _ => false)
      (fun _ _ => false) el).writes ↔ c ∈ simple_sieve N := by
  intro c
  rw [simple_sieve_mem]
  simp only [generate_primes_cpu]
  split_ifs with h1 h2 h3 h4
  · simp only [List.not_mem_nil, false_iff]
    rintro ⟨hp, hle⟩
    have := hp.two_le
    omega
  · simp at h2
  · rw [sieve_start_eq] at h3
    rw [mem_filter_excluded]
    constructor
    · rintro ⟨hmem, h1c, hNc⟩
      exact ⟨mem_wheelExcluded_prime hmem, hNc⟩
    · rintro ⟨hp, hle⟩
      have h2c := hp.two_le
      exact ⟨prime_le_lastExcluded_mem hp (by omega), by omega, hle⟩
  · exfalso
    rw [sieve_start_eq] at h3 h4
    push_neg at h3
    omega
  · push_neg at h3 h4
    rw [sieve_start_eq] at h3 h4 ⊢
    have hroot2 : Nat.sqrt N ≤ integer_sqrt N + 1 := by
      rw [integer_sqrt_eq_sqrt]
      omega
    obtain ⟨g1, -, -, -, -⟩ := groupLoop_false_spec 1 N ss gs (integer_sqrt N + 1) w
      el hgs hroot2 (N + 2) (max (lastExcluded w + 1) 1) 0 1
      (by omega) (by omega) (by omega) (by omega)
    rw [List.mem_append, mem_filter_excluded, g1 c]
    constructor
    · rintro (⟨hmem, h1c, hNc⟩ | ⟨hp, hge, hle⟩)
      · exact ⟨mem_wheelExcluded_prime hmem, hNc⟩
      · exact ⟨hp, hle⟩
    · rintro ⟨hp, hle⟩
      have h2c := hp.two_le
      rcases Nat.lt_or_ge (lastExcluded w) c with hgt | hle2
      · exact Or.inr ⟨hp, by omega, hle⟩
      · exact Or.inl ⟨prime_le_lastExcluded_mem hp hle2, by omega, hle⟩

theorem claim_c1_engine_matches_plain_sieve_witness :
    29 ∈ (generate_primes_cpu ⟨1, 30, .Mod30⟩ 7 2 (fun _ => false)
      (fun _ _ => false) (fun _ => 0)).writes ↔ 29 ∈ simple_sieve 30 :=
  claim_c1_engine_matches_plain_sieve 30 .Mod30 7 2 (by decide) (fun _ => 0) 29
